import Mathlib

/-!
Verification of the DCache node runtime (a peer-to-peer distributed in-memory
key/value cache) against its natural-language specification.

The Python sources under `src/server/src/dcache/` are shallowly embedded:
dictionaries become insertion-ordered association lists, `datetime` values
become integers (only their ordering is ever used), hash indices on the
distribution circle become rationals in `[0, 1)`, and the MD5-based hash is
abstracted into an explicit function parameter `hash : String → ℚ`.
-/

namespace DCache

/-! ### Association lists

Python `dict` objects preserve insertion order, bind each key at most once,
re-binding an existing key keeps its position, and adding a fresh key appends
at the end.  They are embedded as `List (String × α)` with the operations
below (which agree with `dict` semantics whenever keys are unique).
-/

/-- `d.get(key)`: first binding of `key`, if any. -/
def alookup {α : Type} : List (String × α) → String → Option α
  | [], _ => none
  | p :: rest, key => if p.1 = key then some p.2 else alookup rest key

/-- `d.pop(key, None)` (ignoring the returned value): drop the first binding
of `key`. -/
def aerase {α : Type} : List (String × α) → String → List (String × α)
  | [], _ => []
  | p :: rest, key => if p.1 = key then rest else p :: aerase rest key

/-- `d[key] = v`: replace the first binding of `key` in place, or append a new
binding at the end. -/
def aupsert {α : Type} : List (String × α) → String → α → List (String × α)
  | [], key, v => [(key, v)]
  | p :: rest, key, v =>
    if p.1 = key then (key, v) :: rest else p :: aupsert rest key v

/-- Mutating the value stored under `key` in place (e.g.
`d[key].last_seen = x`). -/
def aadjust {α : Type} : List (String × α) → String → (α → α) →
    List (String × α)
  | [], _, _ => []
  | p :: rest, key, f =>
    (if p.1 = key then (p.1, f p.2) else p) :: aadjust rest key f

/-! ### Cache (`src/server/src/dcache/cache.py`) -/

/-- `Cache._Entry`: value, last update time stamp and memoized hash index. -/
structure Entry where
  value : String
  last_update : Int
  hash_index : ℚ
deriving Repr, DecidableEq

/-- The `Cache` object: the insertion-ordered `_cache` dictionary and the
`_size` character counter. -/
structure Cache where
  cache : List (String × Entry)
  size : Int
deriving Repr, DecidableEq

namespace Cache

/-- `Cache.Error`. -/
inductive Error where
  | NO_ERROR
  | TOO_BIG
deriving Repr, DecidableEq

/-- `Cache.MAX_SIZE` (the tests override the class attribute, so the embedded
operations take the limit as an explicit argument). -/
def MAX_SIZE : Int := 1024 * 1024

/-- `Cache.__init__`. -/
def emptyCache : Cache := ⟨[], 0⟩

/-- Actual total of `len(key) + len(value)` over all resident entries. -/
def sizeSum : List (String × Entry) → Int
  | [] => 0
  | p :: rest => (p.1.length : Int) + p.2.value.length + sizeSum rest

/-- The `_size` counter is accurate and keys are bound at most once — the
state as maintained by the real `dict`. -/
def WF (c : Cache) : Prop :=
  c.size = sizeSum c.cache ∧ (c.cache.map Prod.fst).Nodup

instance (c : Cache) : Decidable (WF c) := by unfold WF; infer_instance

/-- `Cache._delete_key`: pop the key and adjust the size counter. -/
def deleteKey (c : Cache) (key : String) : Cache :=
  match alookup c.cache key with
  | none => c
  | some e => ⟨aerase c.cache key, c.size - ((key.length : Int) + e.value.length)⟩

/-- Body of the scan in `Cache._removed_oldest_key`: strict `<` keeps the
first entry with minimal `last_update`, entries with the excluded key are
skipped. -/
def oldestAux : List (String × Entry) → String → Option (Int × String) →
    Option (Int × String)
  | [], _, acc => acc
  | (k, e) :: rest, exceptKey, acc =>
    if k ≠ exceptKey then
      match acc with
      | none => oldestAux rest exceptKey (some (e.last_update, k))
      | some (o, kd) =>
        if e.last_update < o then oldestAux rest exceptKey (some (e.last_update, k))
        else oldestAux rest exceptKey (some (o, kd))
    else oldestAux rest exceptKey acc

/-- The key `Cache._removed_oldest_key(except_key)` would delete. -/
def oldestKeyExcept (l : List (String × Entry)) (exceptKey : String) :
    Option String :=
  (oldestAux l exceptKey none).map (·.2)

/-- One pass of the `while` loop in `Cache._set_entry`, with fuel.  The
source loops `while size + size_change > MAX_SIZE` calling
`_removed_oldest_key`; when no key other than the incoming one is left the
Python loop would spin forever, which is modelled as `none`. -/
def setEntryGo (maxSize : Int) (key : String) (sizeChange : Int) :
    Nat → Cache → Option Cache
  | 0, _ => none
  | fuel + 1, c =>
    if c.size + sizeChange > maxSize then
      match oldestKeyExcept c.cache key with
      | none => none
      | some k => setEntryGo maxSize key sizeChange fuel (deleteKey c k)
    else some c

/-- `Cache._set_entry`: make space, then write the entry and bump the size
counter.  The fuel `c.cache.length + 1` is enough for every terminating run
because each loop iteration deletes one entry. -/
def setEntry (maxSize : Int) (key : String) (e : Entry) (sizeChange : Int)
    (c : Cache) : Option Cache :=
  (setEntryGo maxSize key sizeChange (c.cache.length + 1) c).map
    (fun c2 => ⟨aupsert c2.cache key e, c2.size + sizeChange⟩)

/-- `Cache.set`.  `value = none` is Python `None`; `not value` is true for
both `None` and `""`.  The returned `none` marks the (unreachable in practice)
divergence of the eviction loop. -/
def set (maxSize : Int) (c : Cache) (key : String) (value : Option String)
    (timestamp : Int) (hashIndex : ℚ) : Option (Cache × Error) :=
  if value = none ∨ value = some "" then
    some (deleteKey c key, Error.NO_ERROR)
  else
    let v := value.getD ""
    let keyLen : Int := key.length
    let size : Int := keyLen + v.length
    if size > maxSize then
      some (c, Error.TOO_BIG)
    else
      match alookup c.cache key with
      | none =>
        (setEntry maxSize key ⟨v, timestamp, hashIndex⟩ size c).map
          (fun c2 => (c2, Error.NO_ERROR))
      | some e =>
        if e.last_update ≤ timestamp then
          let currentSize : Int := keyLen + e.value.length
          (setEntry maxSize key ⟨v, timestamp, e.hash_index⟩ (size - currentSize) c).map
            (fun c2 => (c2, Error.NO_ERROR))
        else
          some (c, Error.NO_ERROR)

/-- `Cache.get`: `(last_update, value)` or `(None, None)`. -/
def get (c : Cache) (key : String) : Option Int × Option String :=
  match alookup c.cache key with
  | none => (none, none)
  | some e => (some e.last_update, some e.value)

/-- `Cache.index_for`. -/
def indexOf (c : Cache) (key : String) : Option ℚ :=
  (alookup c.cache key).map (·.hash_index)

end Cache

/-! ### Nodes (`src/server/src/dcache/nodes.py`)

`index_for` normalizes an MD5 digest into `[0, 1)`; it is embedded as an
abstract parameter `hash : String → ℚ` (the theorems hold for every hash
function, and concrete witnesses instantiate it explicitly).
-/

/-- `Nodes.REPLICAS`. -/
def REPLICAS : Nat := 5

/-- `Nodes.REDUNDANCY`. -/
def REDUNDANCY : Nat := 3

/-- One distribution circle: `(index, node_id)` points. -/
abbrev Circle := List (ℚ × String)

/-- `_index_for(node_id, redundancy, replica)`:
hash of `f"{node_id}_{redundancy}_{replica}"`. -/
def indexForNode (hash : String → ℚ) (nodeId : String)
    (redundancy replica : Nat) : ℚ :=
  hash (nodeId ++ "_" ++ toString redundancy ++ "_" ++ toString replica)

/-- `bisect_left`, modelled by its contract on a sorted list: the number of
elements strictly below `x`, i.e. the leftmost insertion point. -/
def bisectLeft (l : List ℚ) (x : ℚ) : Nat :=
  (l.takeWhile (fun a => a < x)).length

/-- `_node_for_index`: the point with the smallest index `≥ index`, wrapping
to the first point when `index` is beyond the last point.  The source asserts
the circle nonempty; the dummy defaults are never reached under that
assumption. -/
def nodeForIndex (circle : Circle) (index : ℚ) : String :=
  let indices := circle.map Prod.fst
  let lastIndex := indices.getLastD 0
  let circleIndex := if lastIndex < index then 0 else bisectLeft indices index
  (circle.getD circleIndex (0, "")).2

/-- Insert a point into a circle keeping the Python tuple order
(index first, then node id). -/
def insertPair (p : ℚ × String) : Circle → Circle
  | [] => [p]
  | q :: rest =>
    if p.1 < q.1 ∨ (p.1 = q.1 ∧ p.2 ≤ q.2) then p :: q :: rest
    else q :: insertPair p rest

/-- `circle.sort()`: ascending by `(index, node_id)`. -/
def sortCircle : Circle → Circle
  | [] => []
  | p :: rest => insertPair p (sortCircle rest)

/-- The `REPLICAS` points a node occupies on the circle with the given
redundancy index. -/
def nodePoints (hash : String → ℚ) (nodeId : String) (redundancy : Nat) :
    Circle :=
  (List.range REPLICAS).map (fun rep => (indexForNode hash nodeId redundancy rep, nodeId))

/-- `Nodes.Node` without its socket. -/
structure NodeRec where
  req_address : String
  pub_address : String
  last_seen : Int
deriving Repr, DecidableEq

/-- The mutable state of a `Nodes` object: own identity and addresses, the
peer table, the distribution circles and
`_nodes_count_on_most_recent_redistribute`. -/
structure NodesState where
  node_id : String
  req_address : String
  pub_address : String
  nodes : List (String × NodeRec)
  circles : List Circle
  recentCount : Nat
deriving Repr, DecidableEq

/-- `Nodes._add_to_circles(node_id, circles, recalculate_indices)`: on each
circle (`redundancy_index` = its position) either extend with the new node's
points, or — when recalculating — rebuild from all known nodes plus self;
then sort. -/
def addToCircles (hash : String → ℚ) (s : NodesState) (nodeId : String)
    (circles : List Circle) (recalc : Bool) : List Circle :=
  circles.enum.map (fun rc =>
    let ids := if recalc then s.nodes.map Prod.fst ++ [s.node_id] else [nodeId]
    let base := if recalc then ([] : Circle) else rc.2
    sortCircle (base ++ (ids.map (fun nid => nodePoints hash nid rc.1)).flatten))

/-- `Nodes._remove_from_circles`. -/
def removeFromCircles (circles : List Circle) (removeId : String) :
    List Circle :=
  circles.map (fun circle => circle.filter (fun p => p.2 ≠ removeId))

/-- `Nodes.__init__` (the node id is `uuid1().hex` at runtime; it is a
parameter here). -/
def initState (hash : String → ℚ) (nodeId req pub : String) : NodesState :=
  let s0 : NodesState := ⟨nodeId, req, pub, [], [[]], 1⟩
  { s0 with circles := addToCircles hash s0 nodeId s0.circles false }

/-- `Nodes._add_node`: store the peer (unless it is the local node), grow the
circle list when one more redundancy level becomes available, and place the
node on the circles. -/
def addNode (hash : String → ℚ) (s : NodesState) (nodeId : String)
    (node : NodeRec) : NodesState :=
  if nodeId ≠ s.node_id then
    let nodes2 := s.nodes ++ [(nodeId, node)]
    if s.circles.length < nodes2.length + 1 ∧ s.circles.length < REDUNDANCY then
      let s2 := { s with nodes := nodes2, circles := s.circles ++ [[]] }
      { s2 with circles := addToCircles hash s2 nodeId s2.circles true }
    else
      let s2 := { s with nodes := nodes2 }
      { s2 with circles := addToCircles hash s2 nodeId s2.circles false }
  else
    { s with circles := addToCircles hash s nodeId s.circles false }

/-- `Nodes._remove_node`: drop the last circle when there are more circles
than nodes, filter the node's points out, and pop it from the table. -/
def removeNode (s : NodesState) (nodeId : String) : NodesState :=
  let nodesCount := s.nodes.length + 1
  let circles1 :=
    if nodesCount - 1 < s.circles.length then s.circles.dropLast else s.circles
  { s with
    nodes := aerase s.nodes nodeId,
    circles := removeFromCircles circles1 nodeId }

/-- Key set of `Nodes.get_nodes_for_index`: the responsible node of each
circle (the Python dict collapses duplicates; only membership is ever used
downstream). -/
def ownersForIndex (circles : List Circle) (x : ℚ) : List String :=
  circles.map (fun c => nodeForIndex c x)

/-- The two result dictionaries of `Nodes.redistribute`.  `send` holds a set
of node ids per key (represented as a list, compared by membership); `keep`
only ever receives `True` entries. -/
structure RedistResult where
  send : List (String × List String)
  keep : List (String × Bool)
deriving Repr, DecidableEq

/-- `send_list[key] |= ids` on a `defaultdict(set)`. -/
def sendUnion (send : List (String × List String)) (key : String)
    (ids : List String) : List (String × List String) :=
  match alookup send key with
  | none => send ++ [(key, ids)]
  | some old => aadjust send key (fun o => o ++ ids.filter (fun i => ¬ i ∈ old))

/-- `keep[key] = True`. -/
def keepSet (keep : List (String × Bool)) (key : String) :
    List (String × Bool) :=
  match alookup keep key with
  | none => keep ++ [(key, true)]
  | some _ => aadjust keep key (fun _ => true)

/-- `frozenset(self.node_id)` — a frozenset of a *string* is the set of its
characters, so this is the list of one-character strings over the node id's
characters (not the singleton of the id itself). -/
def meSetOf (nodeId : String) : List String :=
  nodeId.toList.map (fun ch => String.mk [ch])

/-- The reconstructed previous circles in `Nodes.redistribute`: as many empty
circles as `min(len(circles), recentCount)`, filled with self and all current
peers, then each changed id inverted (present ids removed, absent ids
added). -/
def oldCirclesFor (hash : String → ℚ) (s : NodesState)
    (nodeIds : List String) : List Circle :=
  let base : List Circle :=
    (List.range (min s.circles.length s.recentCount)).map (fun _ => [])
  let c1 := addToCircles hash s s.node_id base false
  let c2 := s.nodes.foldl (fun acc p => addToCircles hash s p.1 acc false) c1
  nodeIds.foldl (fun acc nid =>
    match alookup s.nodes nid with
    | some _ => removeFromCircles acc nid
    | none => addToCircles hash s nid acc false) c2

/-- The per-key body of the ownership loop in `Nodes.redistribute`. -/
def redistStep (s : NodesState) (oldC : List Circle) (me : List String)
    (r : RedistResult) (kp : String × ℚ) : RedistResult :=
  let oldOwners := ownersForIndex oldC kp.2
  let newOwners := ownersForIndex s.circles kp.2
  let r1 :=
    if s.node_id ∈ oldOwners then
      { r with send := (sendUnion r.send kp.1
          (newOwners.filter (fun n => ¬ n ∈ oldOwners ∧ ¬ n ∈ me))) }
    else r
  if s.node_id ∈ newOwners then { r1 with keep := keepSet r1.keep kp.1 } else r1

/-- `Nodes.redistribute(keys, *node_ids)`: `none` models the bare `return`
when no node ids are given (the server guards against that). -/
def redistribute (hash : String → ℚ) (s : NodesState)
    (keys : List (String × ℚ)) (nodeIds : List String) :
    Option (NodesState × RedistResult) :=
  match nodeIds with
  | [] => none
  | _ :: _ =>
    let oldC := oldCirclesFor hash s nodeIds
    let me := meSetOf s.node_id
    let result := keys.foldl (redistStep s oldC me) ⟨[], []⟩
    some ({ s with recentCount := s.nodes.length + 1 }, result)

/-- The request-address snapshot `request_addresses` taken at the top of
`Nodes.update_nodes`: every peer's request address plus the local one. -/
def reqAddrsOf (s : NodesState) : List String :=
  s.nodes.map (·.2.req_address) ++ [s.req_address]

/-- The publish-address snapshot `publish_addresses` of
`Nodes.update_nodes`. -/
def pubAddrsOf (s : NodesState) : List String :=
  s.nodes.map (·.2.pub_address) ++ [s.pub_address]

/-- One iteration of the loop in `Nodes.update_nodes` for the table entry
`(node_id, (request, publish, last_seen))`: skip self; add an unknown id
whose addresses collide with nothing in the snapshots; advance a known id's
`last_seen` only when the incoming value is strictly later. -/
def updStep (hash : String → ℚ) (selfId : String)
    (reqAddrs pubAddrs : List String) (acc : NodesState × List String)
    (entry : String × String × String × Int) : NodesState × List String :=
  if entry.1 ≠ selfId then
    match alookup acc.1.nodes entry.1 with
    | none =>
      if ¬ entry.2.1 ∈ reqAddrs ∧ ¬ entry.2.2.1 ∈ pubAddrs then
        (addNode hash acc.1 entry.1 ⟨entry.2.1, entry.2.2.1, entry.2.2.2⟩,
          acc.2 ++ [entry.1])
      else acc
    | some stored =>
      if entry.2.2.2 > stored.last_seen then
        ({ acc.1 with
            nodes := aadjust acc.1.nodes entry.1
              (fun n => { n with last_seen := entry.2.2.2 }) },
          acc.2)
      else acc
  else acc

/-- `Nodes.update_nodes(nodes, create_node)`: the address sets are snapshots
taken before the loop; `create_node` is the server's `_create_node`, which
builds a `Node` from the request address, publish address and last-seen
stamp. -/
def updateNodes (hash : String → ℚ) (s : NodesState)
    (table : List (String × String × String × Int)) :
    NodesState × List String :=
  table.foldl (updStep hash s.node_id (reqAddrsOf s) (pubAddrsOf s)) (s, [])

/-- A table entry the update loop has fully absorbed: its id is bound with a
`last_seen` at least the incoming one, or it is unbound and one of its
addresses collides with the given snapshots. -/
def updSettled (reqAddrs pubAddrs : List String) (st : NodesState)
    (entry : String × String × String × Int) : Prop :=
  (∃ rec, alookup st.nodes entry.1 = some rec ∧ entry.2.2.2 ≤ rec.last_seen) ∨
  (alookup st.nodes entry.1 = none ∧
    (entry.2.1 ∈ reqAddrs ∨ entry.2.2.1 ∈ pubAddrs))

/-! ### API protocol handlers
(`src/server/src/dcache/protocols/api.py`, mirrored in
`src/server/src/dcache/server.py`) -/

/-- `RequestProtocol.Error`. -/
inductive ReqError where
  | NO_ERROR
  | TOO_BIG
  | NODE_ID_TAKEN
  | UNKNOWN_REQUEST
  | VERSION_NOT_SUPPORTED
deriving Repr, DecidableEq

/-- `APIProtocol.Error`. -/
inductive APIError where
  | NO_ERROR
  | TOO_BIG
  | TIMEOUT
  | UNKNOWN_REQUEST
  | VERSION_NOT_SUPPORTED
deriving Repr, DecidableEq

/-- `_SetRequest._handle_response_from_other_node` as a pure function of the
handler's state (`self._request_ids`, `self._responses`,
`self._responses_count`) and the incoming `(request_id, error)`; `error =
none` is a timeout.  Returns the reply sent to the client (if any), the
updated response list, and the request ids reported as completed. -/
def handleSetResponse (requestIds : List String) (responses : List ReqError)
    (responsesCount : Nat) (requestId : String) (error : Option ReqError) :
    Option APIError × List ReqError × List String :=
  match error with
  | none => (some APIError.TIMEOUT, responses, requestIds)
  | some e =>
    let responses2 := responses ++ [e]
    let reply :=
      if responses2.length = responsesCount then
        some (if responses2.all (fun r => r = ReqError.NO_ERROR) then
          APIError.NO_ERROR else APIError.TOO_BIG)
      else none
    (reply, responses2, [requestId])

/-- The clean-up after a handler runs (`Server._step_handle_timeouts` /
`_step_handle_request_answers`): every completed request id is popped from
the pending-request dictionary. -/
def popPending {α : Type} (pending : List (String × α))
    (completed : List String) : List (String × α) :=
  completed.foldl (fun acc rid => aerase acc rid) pending

/-- The outcome of `_GetRequest.handle_request` once key, cached value and
owners are known. -/
inductive GetAction where
  | reply (value : String)
  | fanOut (owners : List String)
deriving Repr, DecidableEq

/-- The branch structure of `_GetRequest.handle_request`
(`Server._handle_api_get`): look the key up locally; contact the owners only
when there is no local value *and* this node is not an owner; otherwise
answer with the local value or `""`. -/
def handleApiGet (c : Cache) (selfId key : String) (owners : List String) :
    GetAction :=
  let value := (Cache.get c key).2
  let contactOthers :=
    if value = none then decide (¬ selfId ∈ owners) else false
  if contactOthers then GetAction.fanOut owners
  else GetAction.reply (value.getD "")

/-! ### Concrete instances used by witnesses and counterexamples -/

/-- A concrete stand-in for the MD5-based hash, defined on the virtual-point
labels of the three node ids `"SS"`, `"AA"`, `"BB"`: `SS` points land near
`0`, `BB` points near `0.6`, `AA` points near `0.7`, all distinct. -/
def exHash (s : String) : ℚ :=
  match s.toList with
  | [c0, _c1, _u1, r, _u2, i] =>
    mkRat ((if c0 = 'S' then 0 else if c0 = 'B' then 600 else 700)
      + ((r.toNat - 48) * 5 + (i.toNat - 48)) : Nat) 1000
  | _ => 0

/-- Peer record for node `"AA"`. -/
def exNodeA : NodeRec := ⟨"reqA", "pubA", 0⟩

/-- Peer record for node `"BB"`. -/
def exNodeB : NodeRec := ⟨"reqB", "pubB", 0⟩

/-- Fresh node `"SS"`. -/
def exS0 : NodesState := initState exHash "SS" "reqS" "pubS"

/-- After `"AA"` joined. -/
def exS1 : NodesState := addNode exHash exS0 "AA" exNodeA

/-- After the rebalance that follows `"AA"` joining (empty cache). -/
def exS1r : NodesState :=
  match redistribute exHash exS1 [] ["AA"] with
  | some p => p.1
  | none => exS1

/-- After `"BB"` joined. -/
def exS2 : NodesState := addNode exHash exS1r "BB" exNodeB

/-- After the rebalance that follows `"BB"` joining: three nodes, three
circles, `recentCount = 3`. -/
def exS3 : NodesState :=
  match redistribute exHash exS2 [] ["BB"] with
  | some p => p.1
  | none => exS2

/-- After `"BB"` was removed (dead): two circles remain. -/
def exS4 : NodesState := removeNode exS3 "BB"

/-- The literal ring of the spec's ring-lookup scenario. -/
def exRing : Circle :=
  [(mkRat 1 10, "A"), (mkRat 2 10, "B"), (mkRat 5 10, "A"), (mkRat 9 10, "B")]

/-- A one-entry cache: `"a" ↦ ("1", t = 5)`. -/
def exCacheA : Cache := ⟨[("a", ⟨"1", 5, 0⟩)], 2⟩

/-- A one-entry cache holding key `"k"`. -/
def exCacheK : Cache := ⟨[("k", ⟨"v", 3, 0⟩)], 2⟩

/-! ### Auxiliary definitions for the theorems -/

/-- The ring owner as the spec words it: the node at the point with the
smallest index `≥ x` (the first such point on a sorted ring), wrapping to
the first point when there is none. -/
def specOwner (circle : Circle) (x : ℚ) : String :=
  match circle.find? (fun p => x ≤ p.1) with
  | some p => p.2
  | none => (circle.headD (0, "")).2

/-- Contribution of `key`'s own (pre-update) entry to the size counter: the
part of the cache the eviction loop can never free. -/
def residualFor (c : Cache) (key : String) : Int :=
  match alookup c.cache key with
  | some e => (key.length : Int) + e.value.length
  | none => 0

/-- `Nodes` states reachable from a fresh node by the membership operations:
`_add_node` for an unknown non-local id (as called from `update_nodes`) and
`_remove_node` for a known id (as called from `remove_dead_nodes`). -/
inductive Reachable (hash : String → ℚ) : NodesState → Prop where
  | init (nodeId req pub : String) : Reachable hash (initState hash nodeId req pub)
  | add {s : NodesState} (nodeId : String) (node : NodeRec) :
      Reachable hash s → nodeId ≠ s.node_id → alookup s.nodes nodeId = none →
      Reachable hash (addNode hash s nodeId node)
  | remove {s : NodesState} (nodeId : String) :
      Reachable hash s → (alookup s.nodes nodeId).isSome →
      Reachable hash (removeNode s nodeId)

/-! ## Theorems -/

/-! ### Association list lemmas -/

theorem alookup_aerase_ne {α : Type} (l : List (String × α)) (key k : String)
    (h : k ≠ key) : alookup (aerase l key) k = alookup l k := by
  induction l with
  | nil => rfl
  | cons p rest ih =>
    by_cases hp : p.1 = key
    · have hk : ¬ key = k := fun hh => h hh.symm
      simp [aerase, alookup, hp, hk]
    · simp only [aerase, alookup, if_neg hp]
      by_cases hk : p.1 = k
      · simp [alookup, hk]
      · simp [alookup, hk, ih]

theorem mem_keys_of_mem_keys_aerase {α : Type} (l : List (String × α))
    (key x : String) (h : x ∈ (aerase l key).map Prod.fst) :
    x ∈ l.map Prod.fst := by
  induction l with
  | nil => simpa [aerase] using h
  | cons p rest ih =>
    by_cases hp : p.1 = key
    · simp only [aerase, if_pos hp] at h
      simp [h]
    · simp only [aerase, if_neg hp, List.map_cons, List.mem_cons] at h
      rcases h with h | h
      · simp [h]
      · simp [ih h]

theorem nodup_keys_aerase {α : Type} (l : List (String × α)) (key : String)
    (h : (l.map Prod.fst).Nodup) : ((aerase l key).map Prod.fst).Nodup := by
  induction l with
  | nil => simpa [aerase] using h
  | cons p rest ih =>
    simp only [List.map_cons, List.nodup_cons] at h
    by_cases hp : p.1 = key
    · simpa [aerase, hp] using h.2
    · simp only [aerase, if_neg hp, List.map_cons, List.nodup_cons]
      exact ⟨fun hm => h.1 (mem_keys_of_mem_keys_aerase rest key p.1 hm), ih h.2⟩

theorem length_aerase_of_alookup {α : Type} (l : List (String × α))
    (key : String) (v : α) (h : alookup l key = some v) :
    (aerase l key).length + 1 = l.length := by
  induction l with
  | nil => simp [alookup] at h
  | cons p rest ih =>
    by_cases hp : p.1 = key
    · simp [aerase, hp]
    · simp only [alookup, if_neg hp] at h
      simp [aerase, if_neg hp, ih h]

theorem alookup_aupsert_self {α : Type} (l : List (String × α)) (key : String)
    (v : α) : alookup (aupsert l key v) key = some v := by
  induction l with
  | nil => simp [aupsert, alookup]
  | cons p rest ih =>
    by_cases hp : p.1 = key
    · simp [aupsert, hp, alookup]
    · simp [aupsert, if_neg hp, alookup, hp, ih]

theorem keys_aupsert_of_alookup_some {α : Type} (l : List (String × α))
    (key : String) (v v0 : α) (h : alookup l key = some v0) :
    (aupsert l key v).map Prod.fst = l.map Prod.fst := by
  induction l with
  | nil => simp [alookup] at h
  | cons p rest ih =>
    by_cases hp : p.1 = key
    · simp [aupsert, hp]
    · simp only [alookup, if_neg hp] at h
      simp [aupsert, if_neg hp, ih h]

theorem mem_keys_aupsert {α : Type} (l : List (String × α)) (key x : String)
    (v : α) (h : x ∈ (aupsert l key v).map Prod.fst) :
    x ∈ l.map Prod.fst ∨ x = key := by
  induction l with
  | nil => simpa [aupsert] using h
  | cons p rest ih =>
    by_cases hp : p.1 = key
    · simp only [aupsert, if_pos hp, List.map_cons, List.mem_cons] at h
      rcases h with h | h
      · exact Or.inr h
      · exact Or.inl (by simp [h])
    · simp only [aupsert, if_neg hp, List.map_cons, List.mem_cons] at h
      rcases h with h | h
      · exact Or.inl (by simp [h])
      · rcases ih h with h2 | h2
        · exact Or.inl (by simp [h2])
        · exact Or.inr h2

theorem nodup_keys_aupsert {α : Type} (l : List (String × α)) (key : String)
    (v : α) (h : (l.map Prod.fst).Nodup) :
    ((aupsert l key v).map Prod.fst).Nodup := by
  induction l with
  | nil => simp [aupsert]
  | cons p rest ih =>
    simp only [List.map_cons, List.nodup_cons] at h
    by_cases hp : p.1 = key
    · simp only [aupsert, if_pos hp, List.map_cons, List.nodup_cons]
      exact ⟨fun hm => h.1 (by rwa [hp]), h.2⟩
    · simp only [aupsert, if_neg hp, List.map_cons, List.nodup_cons]
      refine ⟨fun hm => ?_, ih h.2⟩
      rcases mem_keys_aupsert rest key p.1 v hm with h2 | h2
      · exact h.1 h2
      · exact hp h2

/-! ### Cache lemmas -/

namespace Cache

theorem sizeSum_nonneg (l : List (String × Entry)) : 0 ≤ sizeSum l := by
  induction l with
  | nil => simp [sizeSum]
  | cons p rest ih => simp only [sizeSum]; positivity

theorem sizeSum_aerase (l : List (String × Entry)) (key : String) (e : Entry)
    (h : alookup l key = some e) :
    sizeSum (aerase l key) = sizeSum l - ((key.length : Int) + e.value.length) := by
  induction l with
  | nil => simp [alookup] at h
  | cons p rest ih =>
    by_cases hp : p.1 = key
    · simp only [alookup, if_pos hp] at h
      have hpe : p.2 = e := Option.some.inj h
      simp [aerase, hp, sizeSum, hpe]
      try ring
    · simp only [alookup, if_neg hp] at h
      simp only [aerase, if_neg hp, sizeSum, ih h]
      ring

theorem sizeSum_aupsert_none (l : List (String × Entry)) (key : String)
    (e : Entry) (h : alookup l key = none) :
    sizeSum (aupsert l key e) = sizeSum l + ((key.length : Int) + e.value.length) := by
  induction l with
  | nil => simp [aupsert, sizeSum]
  | cons p rest ih =>
    by_cases hp : p.1 = key
    · simp [alookup, hp] at h
    · simp only [alookup, if_neg hp] at h
      simp only [aupsert, if_neg hp, sizeSum, ih h]
      ring

theorem sizeSum_aupsert_some (l : List (String × Entry)) (key : String)
    (e e0 : Entry) (h : alookup l key = some e0) :
    sizeSum (aupsert l key e) =
      sizeSum l - ((key.length : Int) + e0.value.length)
        + ((key.length : Int) + e.value.length) := by
  induction l with
  | nil => simp [alookup] at h
  | cons p rest ih =>
    by_cases hp : p.1 = key
    · simp only [alookup, if_pos hp] at h
      have hpe : p.2 = e0 := Option.some.inj h
      simp [aupsert, hp, sizeSum, hpe]
      ring
    · simp only [alookup, if_neg hp] at h
      simp only [aupsert, if_neg hp, sizeSum, ih h]
      ring

theorem WF_deleteKey (c : Cache) (key : String) (h : WF c) :
    WF (deleteKey c key) := by
  unfold deleteKey
  cases he : alookup c.cache key with
  | none => exact h
  | some e =>
    constructor
    · simp only [sizeSum_aerase c.cache key e he, h.1]
    · exact nodup_keys_aerase c.cache key h.2

theorem alookup_deleteKey_ne (c : Cache) (key k : String) (h : k ≠ key) :
    alookup (deleteKey c key).cache k = alookup c.cache k := by
  unfold deleteKey
  cases he : alookup c.cache key with
  | none => rfl
  | some e => exact alookup_aerase_ne c.cache key k h

theorem length_deleteKey_of_some (c : Cache) (key : String) (e : Entry)
    (h : alookup c.cache key = some e) :
    (deleteKey c key).cache.length + 1 = c.cache.length := by
  unfold deleteKey
  rw [h]
  exact length_aerase_of_alookup c.cache key e h

/-- The scan of `_removed_oldest_key` starting from a `some` accumulator
always produces a result. -/
theorem oldestAux_isSome_of_acc (l : List (String × Entry)) (ex : String) :
    ∀ a : Int × String, ∃ b, oldestAux l ex (some a) = some b := by
  induction l with
  | nil => exact fun a => ⟨a, rfl⟩
  | cons p rest ih =>
    intro a
    rcases p with ⟨k, e⟩
    by_cases hk : k ≠ ex
    · simp only [oldestAux, if_pos hk]
      by_cases hlt : e.last_update < a.1
      · simpa [hlt] using ih (e.last_update, k)
      · simpa [hlt] using ih (a.1, a.2)
    · simpa [oldestAux, if_neg hk] using ih a

/-- Specification of the accumulator scan: the result either is the initial
accumulator or comes from a non-excluded entry of the list, it is a lower
bound of every non-excluded entry, and it never exceeds the initial
accumulator. -/
theorem oldestAux_spec (l : List (String × Entry)) (ex : String) :
    ∀ (acc : Option (Int × String)) (o : Int) (k : String),
      oldestAux l ex acc = some (o, k) →
      (acc = some (o, k) ∨ ∃ e, (k, e) ∈ l ∧ e.last_update = o ∧ k ≠ ex) ∧
      (∀ p ∈ l, p.1 ≠ ex → o ≤ p.2.last_update) ∧
      (∀ o0 k0, acc = some (o0, k0) → o ≤ o0) := by
  induction l with
  | nil =>
    intro acc o k h
    refine ⟨Or.inl (by simpa [oldestAux] using h), by simp, ?_⟩
    intro o0 k0 h0
    rw [h0] at h
    simp only [oldestAux, Option.some.injEq, Prod.mk.injEq] at h
    exact le_of_eq h.1.symm
  | cons p rest ih =>
    intro acc o k h
    rcases p with ⟨k1, e1⟩
    by_cases hk : k1 ≠ ex
    · simp only [oldestAux, if_pos hk] at h
      cases acc with
      | none =>
        obtain ⟨h1, h2, h3⟩ := ih (some (e1.last_update, k1)) o k h
        refine ⟨?_, ?_, by simp⟩
        · rcases h1 with h1 | h1
          · cases h1
            exact Or.inr ⟨e1, by simp, rfl, hk⟩
          · rcases h1 with ⟨e, he, heq, hne⟩
            exact Or.inr ⟨e, by simp [he], heq, hne⟩
        · intro q hq hqex
          rcases List.mem_cons.1 hq with rfl | hq2
          · exact h3 e1.last_update k1 rfl
          · exact h2 q hq2 hqex
      | some a =>
        rcases a with ⟨o0, kd⟩
        by_cases hlt : e1.last_update < o0
        · simp only [if_pos hlt] at h
          obtain ⟨h1, h2, h3⟩ := ih (some (e1.last_update, k1)) o k h
          have hole : o ≤ e1.last_update := h3 e1.last_update k1 rfl
          refine ⟨?_, ?_, ?_⟩
          · rcases h1 with h1 | h1
            · cases h1
              exact Or.inr ⟨e1, by simp, rfl, hk⟩
            · rcases h1 with ⟨e, he, heq, hne⟩
              exact Or.inr ⟨e, by simp [he], heq, hne⟩
          · intro q hq hqex
            rcases List.mem_cons.1 hq with rfl | hq2
            · exact hole
            · exact h2 q hq2 hqex
          · intro o1 k2 h4
            cases h4
            exact le_trans hole (le_of_lt hlt)
        · simp only [if_neg hlt] at h
          obtain ⟨h1, h2, h3⟩ := ih (some (o0, kd)) o k h
          have hoo : o ≤ o0 := h3 o0 kd rfl
          refine ⟨?_, ?_, ?_⟩
          · rcases h1 with h1 | h1
            · exact Or.inl h1
            · rcases h1 with ⟨e, he, heq, hne⟩
              exact Or.inr ⟨e, by simp [he], heq, hne⟩
          · intro q hq hqex
            rcases List.mem_cons.1 hq with rfl | hq2
            · exact le_trans hoo (not_lt.1 hlt)
            · exact h2 q hq2 hqex
          · intro o1 k2 h4
            cases h4
            exact hoo
    · simp only [oldestAux, if_neg hk] at h
      have hk2 : k1 = ex := not_not.1 (by simpa using hk)
      obtain ⟨h1, h2, h3⟩ := ih acc o k h
      refine ⟨?_, ?_, h3⟩
      · rcases h1 with h1 | h1
        · exact Or.inl h1
        · rcases h1 with ⟨e, he, heq, hne⟩
          exact Or.inr ⟨e, by simp [he], heq, hne⟩
      · intro q hq hqex
        rcases List.mem_cons.1 hq with rfl | hq2
        · exact absurd hk2 hqex
        · exact h2 q hq2 hqex

/-- What `_removed_oldest_key` deletes: a non-excluded resident entry whose
`last_update` is minimal among all non-excluded entries. -/
theorem oldestKeyExcept_spec (l : List (String × Entry)) (ex k : String)
    (h : oldestKeyExcept l ex = some k) :
    k ≠ ex ∧ ∃ e, (k, e) ∈ l ∧
      ∀ p ∈ l, p.1 ≠ ex → e.last_update ≤ p.2.last_update := by
  unfold oldestKeyExcept at h
  cases ha : oldestAux l ex none with
  | none => rw [ha] at h; simp at h
  | some b =>
    rw [ha] at h
    rcases b with ⟨o, k2⟩
    have hkk : k2 = k := by simpa using h
    subst hkk
    obtain ⟨h1, h2, _⟩ := oldestAux_spec l ex none o k2 ha
    rcases h1 with h1 | h1
    · simp at h1
    · rcases h1 with ⟨e, he, heq, hne⟩
      exact ⟨hne, e, he, fun p hp hpex => heq ▸ h2 p hp hpex⟩

theorem oldestKeyExcept_none (l : List (String × Entry)) (ex : String)
    (h : oldestKeyExcept l ex = none) : ∀ p ∈ l, p.1 = ex := by
  induction l with
  | nil => simp
  | cons p rest ih =>
    rcases p with ⟨k1, e1⟩
    by_cases hk : k1 ≠ ex
    · exfalso
      unfold oldestKeyExcept at h
      simp only [oldestAux, if_pos hk] at h
      obtain ⟨b, hb⟩ := oldestAux_isSome_of_acc rest ex (e1.last_update, k1)
      rw [hb] at h
      simp at h
    · intro q hq
      rcases List.mem_cons.1 hq with rfl | hq2
      · exact not_not.1 (by simpa using hk)
      · refine ih ?_ q hq2
        unfold oldestKeyExcept at h ⊢
        simp only [oldestAux, if_neg hk] at h
        exact h

theorem alookup_of_mem_nodup (l : List (String × Entry)) (k : String)
    (e : Entry) (hm : (k, e) ∈ l) : ∃ e2, alookup l k = some e2 := by
  induction l with
  | nil => simp at hm
  | cons p rest ih =>
    by_cases hp : p.1 = k
    · exact ⟨p.2, by simp [alookup, hp]⟩
    · rcases List.mem_cons.1 hm with rfl | hm2
      · simp at hp
      · simpa [alookup, hp] using ih hm2

/-- Every successful run of the eviction loop preserves well-formedness,
exits only when the pending entry fits, and never touches the incoming
key's binding. -/
theorem setEntryGo_spec (maxSize sc : Int) (key : String) :
    ∀ (fuel : Nat) (c c2 : Cache), WF c →
      setEntryGo maxSize key sc fuel c = some c2 →
      WF c2 ∧ c2.size + sc ≤ maxSize ∧
        alookup c2.cache key = alookup c.cache key := by
  intro fuel
  induction fuel with
  | zero => intro c c2 _ h; simp [setEntryGo] at h
  | succ n ih =>
    intro c c2 hwf h
    simp only [setEntryGo] at h
    by_cases hc : c.size + sc > maxSize
    · rw [if_pos hc] at h
      cases ho : oldestKeyExcept c.cache key with
      | none => rw [ho] at h; simp at h
      | some k =>
        rw [ho] at h
        obtain ⟨hne, _e, _hmem, _⟩ := oldestKeyExcept_spec c.cache key k ho
        obtain ⟨hw2, hle, hlk⟩ := ih (deleteKey c k) c2 (WF_deleteKey c k hwf) h
        exact ⟨hw2, hle,
          hlk.trans (alookup_deleteKey_ne c k key (Ne.symm hne))⟩
    · rw [if_neg hc] at h
      cases h
      exact ⟨hwf, not_lt.1 hc, rfl⟩

/-- With enough fuel the eviction loop terminates whenever the part of the
cache it can never free (the incoming key's own entry) plus the size change
fits the limit — which holds at both call sites of `_set_entry`. -/
theorem setEntryGo_total (maxSize sc : Int) (key : String) :
    ∀ (fuel : Nat) (c : Cache), WF c → residualFor c key + sc ≤ maxSize →
      c.cache.length < fuel → (setEntryGo maxSize key sc fuel c).isSome := by
  intro fuel
  induction fuel with
  | zero => intro c _ _ h; omega
  | succ n ih =>
    intro c hwf hres hlen
    simp only [setEntryGo]
    by_cases hc : c.size + sc > maxSize
    · rw [if_pos hc]
      cases ho : oldestKeyExcept c.cache key with
      | none =>
        exfalso
        have hall := oldestKeyExcept_none c.cache key ho
        have hsz : sizeSum c.cache = residualFor c key := by
          cases hl : c.cache with
          | nil => simp [sizeSum, residualFor, hl, alookup]
          | cons p rest =>
            have hp1 : p.1 = key := hall p (by simp [hl])
            have hrest : rest = [] := by
              cases hr : rest with
              | nil => rfl
              | cons q qs =>
                exfalso
                have hq1 : q.1 = key := hall q (by simp [hl, hr])
                have hnd := hwf.2
                rw [hl, hr] at hnd
                simp only [List.map_cons, List.nodup_cons, List.mem_cons] at hnd
                exact hnd.1 (Or.inl (hp1.trans hq1.symm))
            subst hrest
            unfold residualFor
            rw [hl]
            simp [alookup, sizeSum, hp1]
        rw [hwf.1, hsz] at hc
        omega
      | some k =>
        obtain ⟨hne, e, hmem, _⟩ := oldestKeyExcept_spec c.cache key k ho
        obtain ⟨e2, he2⟩ := alookup_of_mem_nodup c.cache k e hmem
        have hlen2 : (deleteKey c k).cache.length < n := by
          have := length_deleteKey_of_some c k e2 he2
          omega
        have hres2 : residualFor (deleteKey c k) key + sc ≤ maxSize := by
          unfold residualFor at hres ⊢
          rw [alookup_deleteKey_ne c k key (Ne.symm hne)]
          exact hres
        exact ih (deleteKey c k) (WF_deleteKey c k hwf) hres2 hlen2
    · rw [if_neg hc]
      simp

theorem sizeSum_deleteKey_le (c : Cache) (key : String) :
    sizeSum (deleteKey c key).cache ≤ sizeSum c.cache := by
  unfold deleteKey
  cases he : alookup c.cache key with
  | none => exact le_refl _
  | some e =>
    simp only
    rw [sizeSum_aerase c.cache key e he]
    have h1 : (0 : Int) ≤ (key.length : Int) + e.value.length := by positivity
    omega

theorem set_none (maxSize : Int) (c : Cache) (key : String) (t : Int) (hi : ℚ) :
    set maxSize c key none t hi = some (deleteKey c key, Error.NO_ERROR) := by
  simp [set]

theorem set_empty (maxSize : Int) (c : Cache) (key : String) (t : Int) (hi : ℚ) :
    set maxSize c key (some "") t hi = some (deleteKey c key, Error.NO_ERROR) := by
  simp [set]

theorem set_too_big (maxSize : Int) (c : Cache) (key s : String) (t : Int)
    (hi : ℚ) (hs : s ≠ "") (hsize : (key.length : Int) + s.length > maxSize) :
    set maxSize c key (some s) t hi = some (c, Error.TOO_BIG) := by
  simp [set, hs, hsize]

theorem set_new (maxSize : Int) (c : Cache) (key s : String) (t : Int) (hi : ℚ)
    (hs : s ≠ "") (hsize : ¬ (key.length : Int) + s.length > maxSize)
    (hl : alookup c.cache key = none) :
    set maxSize c key (some s) t hi =
      (setEntry maxSize key ⟨s, t, hi⟩ ((key.length : Int) + s.length) c).map
        (fun c2 => (c2, Error.NO_ERROR)) := by
  simp [set, hs, hsize, hl]

theorem set_update (maxSize : Int) (c : Cache) (key s : String) (t : Int)
    (hi : ℚ) (e : Entry) (hs : s ≠ "")
    (hsize : ¬ (key.length : Int) + s.length > maxSize)
    (hl : alookup c.cache key = some e) (ht : e.last_update ≤ t) :
    set maxSize c key (some s) t hi =
      (setEntry maxSize key ⟨s, t, e.hash_index⟩
          ((key.length : Int) + s.length - ((key.length : Int) + e.value.length)) c).map
        (fun c2 => (c2, Error.NO_ERROR)) := by
  simp [set, hs, hsize, hl, ht]

theorem set_stale (maxSize : Int) (c : Cache) (key s : String) (t : Int)
    (hi : ℚ) (e : Entry) (hs : s ≠ "")
    (hsize : ¬ (key.length : Int) + s.length > maxSize)
    (hl : alookup c.cache key = some e) (ht : ¬ e.last_update ≤ t) :
    set maxSize c key (some s) t hi = some (c, Error.NO_ERROR) := by
  simp [set, hs, hsize, hl, ht]

theorem setEntry_spec (maxSize sc : Int) (key : String) (e : Entry)
    (c cOut : Cache) (hwf : WF c) (h : setEntry maxSize key e sc c = some cOut) :
    ∃ c2, WF c2 ∧ c2.size + sc ≤ maxSize ∧
      alookup c2.cache key = alookup c.cache key ∧
      cOut = ⟨aupsert c2.cache key e, c2.size + sc⟩ := by
  unfold setEntry at h
  cases hgo : setEntryGo maxSize key sc (c.cache.length + 1) c with
  | none => rw [hgo] at h; simp at h
  | some c2 =>
    rw [hgo] at h
    simp only [Option.map_some', Option.some.injEq] at h
    obtain ⟨hw2, hle, hlk⟩ := setEntryGo_spec maxSize sc key _ c c2 hwf hgo
    exact ⟨c2, hw2, hle, hlk, h.symm⟩

theorem setEntry_isSome (maxSize sc : Int) (key : String) (e : Entry)
    (c : Cache) (hwf : WF c) (hres : residualFor c key + sc ≤ maxSize) :
    ∃ cOut, setEntry maxSize key e sc c = some cOut := by
  have h := setEntryGo_total maxSize sc key (c.cache.length + 1) c hwf hres
    (by omega)
  unfold setEntry
  cases hgo : setEntryGo maxSize key sc (c.cache.length + 1) c with
  | none => rw [hgo] at h; simp at h
  | some c2 => exact ⟨⟨aupsert c2.cache key e, c2.size + sc⟩, rfl⟩

theorem setEntry_shape (maxSize sc : Int) (key : String) (e : Entry)
    (c cOut : Cache) (h : setEntry maxSize key e sc c = some cOut) :
    ∃ c2 : Cache, cOut = ⟨aupsert c2.cache key e, c2.size + sc⟩ := by
  unfold setEntry at h
  cases hgo : setEntryGo maxSize key sc (c.cache.length + 1) c with
  | none => rw [hgo] at h; simp at h
  | some c2 =>
    rw [hgo] at h
    simp only [Option.map_some', Option.some.injEq] at h
    exact ⟨c2, h.symm⟩

end Cache

/-! ### Cache claims -/

/-- C2: after every `Cache.set` that returns `NO_ERROR` on a well-formed
cache within its bound, the total of `len(key) + len(value)` over all
resident entries is again at most the size limit (first conjunct); and each
step of the eviction loop removes an entry other than the incoming key whose
`last_update` is minimal among all such entries — oldest-first eviction
excluding the incoming key (second conjunct). -/
theorem C2_set_respects_max_size :
    (∀ (maxSize : Int) (c : Cache) (key : String) (v : Option String)
        (t : Int) (hi : ℚ) (c' : Cache),
        Cache.WF c → Cache.sizeSum c.cache ≤ maxSize →
        Cache.set maxSize c key v t hi = some (c', Cache.Error.NO_ERROR) →
        Cache.WF c' ∧ Cache.sizeSum c'.cache ≤ maxSize) ∧
    (∀ (l : List (String × Entry)) (key k : String),
        Cache.oldestKeyExcept l key = some k →
        k ≠ key ∧ ∃ e, (k, e) ∈ l ∧
          ∀ p ∈ l, p.1 ≠ key → e.last_update ≤ p.2.last_update) := by
  constructor
  · intro maxSize c key v t hi c' hwf hbound hset
    cases v with
    | none =>
      rw [Cache.set_none] at hset
      simp only [Option.some.injEq, Prod.mk.injEq] at hset
      obtain ⟨h1, -⟩ := hset
      subst h1
      exact ⟨Cache.WF_deleteKey c key hwf,
        le_trans (Cache.sizeSum_deleteKey_le c key) hbound⟩
    | some s =>
      by_cases hs : s = ""
      · subst hs
        rw [Cache.set_empty] at hset
        simp only [Option.some.injEq, Prod.mk.injEq] at hset
        obtain ⟨h1, -⟩ := hset
        subst h1
        exact ⟨Cache.WF_deleteKey c key hwf,
          le_trans (Cache.sizeSum_deleteKey_le c key) hbound⟩
      · by_cases hsize : (key.length : Int) + s.length > maxSize
        · rw [Cache.set_too_big maxSize c key s t hi hs hsize] at hset
          simp at hset
        · cases hl : alookup c.cache key with
          | none =>
            rw [Cache.set_new maxSize c key s t hi hs hsize hl] at hset
            cases hse : Cache.setEntry maxSize key ⟨s, t, hi⟩
                ((key.length : Int) + s.length) c with
            | none => rw [hse] at hset; simp at hset
            | some cOut =>
              rw [hse] at hset
              simp only [Option.map_some', Option.some.injEq,
                Prod.mk.injEq] at hset
              obtain ⟨h1, -⟩ := hset
              subst h1
              obtain ⟨c2, hw2, hle, hlk, rfl⟩ :=
                Cache.setEntry_spec _ _ _ _ _ _ hwf hse
              rw [hl] at hlk
              have hsum := Cache.sizeSum_aupsert_none c2.cache key ⟨s, t, hi⟩ hlk
              dsimp only at hsum ⊢
              constructor
              · exact ⟨by rw [hsum, hw2.1],
                  nodup_keys_aupsert c2.cache key _ hw2.2⟩
              · rw [hsum, ← hw2.1]
                omega
          | some e =>
            by_cases ht : e.last_update ≤ t
            · rw [Cache.set_update maxSize c key s t hi e hs hsize hl ht] at hset
              cases hse : Cache.setEntry maxSize key ⟨s, t, e.hash_index⟩
                  ((key.length : Int) + s.length -
                    ((key.length : Int) + e.value.length)) c with
              | none => rw [hse] at hset; simp at hset
              | some cOut =>
                rw [hse] at hset
                simp only [Option.map_some', Option.some.injEq,
                  Prod.mk.injEq] at hset
                obtain ⟨h1, -⟩ := hset
                subst h1
                obtain ⟨c2, hw2, hle, hlk, rfl⟩ :=
                  Cache.setEntry_spec _ _ _ _ _ _ hwf hse
                rw [hl] at hlk
                have hsum := Cache.sizeSum_aupsert_some c2.cache key ⟨s, t, e.hash_index⟩ e hlk
                dsimp only at hsum ⊢
                constructor
                · exact ⟨by rw [hsum, hw2.1]; ring,
                    nodup_keys_aupsert c2.cache key _ hw2.2⟩
                · rw [hsum, ← hw2.1]
                  omega
            · rw [Cache.set_stale maxSize c key s t hi e hs hsize hl ht] at hset
              simp only [Option.some.injEq, Prod.mk.injEq] at hset
              obtain ⟨h1, -⟩ := hset
              subst h1
              exact ⟨hwf, hbound⟩
  · intro l key k h
    exact Cache.oldestKeyExcept_spec l key k h

/-- Witness for C2 at a concrete input: with `MAX_SIZE = 2`, setting
`("b", "2")` into the full one-entry cache evicts the older entry and the
resulting cache is well-formed and within bound. -/
theorem C2_set_respects_max_size_witness :
    Cache.WF (⟨[("b", ⟨"2", 7, 0⟩)], 2⟩ : Cache) ∧
    Cache.sizeSum (⟨[("b", ⟨"2", 7, 0⟩)], 2⟩ : Cache).cache ≤ 2 :=
  C2_set_respects_max_size.1 2 exCacheA "b" (some "2") 7 0
    ⟨[("b", ⟨"2", 7, 0⟩)], 2⟩ (by decide) (by decide) (by decide)

/-- C1 counterexample: `Cache.set` with an *empty* value deletes the entry
before the timestamp comparison, so a set whose timestamp `0` is strictly
earlier than the stored `last_update = 5` does change the stored value and
timestamp (the entry disappears), refuting the claim as universally
stated. -/
theorem C1_stale_write_counterexample :
    (0 : Int) < 5 ∧
    Cache.get exCacheA "a" = (some 5, some "1") ∧
    Cache.set 100 exCacheA "a" (some "") 0 0 =
      some (Cache.emptyCache, Cache.Error.NO_ERROR) ∧
    Cache.get Cache.emptyCache "a" = (none, none) := by decide

/-- C1 (amended to non-empty values): a `Cache.set` with a non-empty value
and a timestamp strictly earlier than the stored `last_update` leaves the
cache state literally unchanged (first conjunct, with `TOO_BIG` reported
exactly when the entry would not fit); and across any `set` with a non-empty
value for a key, the stored `last_update` — the timestamp `Cache.get`
returns — never decreases (second conjunct), so it is non-decreasing across
any sequence of such calls. -/
theorem C1_stale_write_amended :
    ∀ (maxSize : Int) (c : Cache) (key s : String) (t : Int) (hi : ℚ)
      (e : Entry),
      alookup c.cache key = some e → s ≠ "" →
      ((t < e.last_update →
          Cache.set maxSize c key (some s) t hi =
            some (c, if (key.length : Int) + s.length > maxSize
              then Cache.Error.TOO_BIG else Cache.Error.NO_ERROR)) ∧
       (∀ (c' : Cache) (err : Cache.Error),
          Cache.set maxSize c key (some s) t hi = some (c', err) →
          ∃ e', alookup c'.cache key = some e' ∧
            e.last_update ≤ e'.last_update)) := by
  intro maxSize c key s t hi e hl hs
  constructor
  · intro ht
    by_cases hsize : (key.length : Int) + s.length > maxSize
    · rw [Cache.set_too_big maxSize c key s t hi hs hsize, if_pos hsize]
    · rw [Cache.set_stale maxSize c key s t hi e hs hsize hl (not_le.2 ht),
        if_neg hsize]
  · intro c' err hset
    by_cases hsize : (key.length : Int) + s.length > maxSize
    · rw [Cache.set_too_big maxSize c key s t hi hs hsize] at hset
      simp only [Option.some.injEq, Prod.mk.injEq] at hset
      obtain ⟨h1, -⟩ := hset
      subst h1
      exact ⟨e, hl, le_refl _⟩
    · by_cases ht : e.last_update ≤ t
      · rw [Cache.set_update maxSize c key s t hi e hs hsize hl ht] at hset
        cases hse : Cache.setEntry maxSize key ⟨s, t, e.hash_index⟩
            ((key.length : Int) + s.length -
              ((key.length : Int) + e.value.length)) c with
        | none => rw [hse] at hset; simp at hset
        | some cOut =>
          rw [hse] at hset
          simp only [Option.map_some', Option.some.injEq, Prod.mk.injEq] at hset
          obtain ⟨h1, -⟩ := hset
          subst h1
          obtain ⟨c2, rfl⟩ := Cache.setEntry_shape _ _ _ _ _ _ hse
          exact ⟨⟨s, t, e.hash_index⟩, alookup_aupsert_self c2.cache key _, ht⟩
      · rw [Cache.set_stale maxSize c key s t hi e hs hsize hl ht] at hset
        simp only [Option.some.injEq, Prod.mk.injEq] at hset
        obtain ⟨h1, -⟩ := hset
        subst h1
        exact ⟨e, hl, le_refl _⟩

/-- Witness for the amended C1: a stale non-empty write against the stored
timestamp `5` leaves the one-entry cache unchanged and returns
`NO_ERROR`. -/
theorem C1_stale_write_amended_witness :
    Cache.set 100 exCacheA "a" (some "2") 1 0 =
      some (exCacheA, Cache.Error.NO_ERROR) :=
  ((C1_stale_write_amended 100 exCacheA "a" "2" 1 0 ⟨"1", 5, 0⟩
    (by decide) (by decide)).1 (by decide)).trans (by decide)

/-- C8: for a non-empty value, `Cache.set` returns `TOO_BIG` — leaving the
cache unchanged — exactly when `len(key) + len(value)` exceeds the size
limit, and returns `NO_ERROR` otherwise (first conjunct); in particular,
with `MAX_SIZE = 2`, `set("a", "12")` is rejected and a subsequent
`get("a")` yields `(nil, nil)` (second conjunct). -/
theorem C8_too_big_iff :
    (∀ (maxSize : Int) (c : Cache) (key s : String) (t : Int) (hi : ℚ),
        s ≠ "" →
        (((key.length : Int) + s.length > maxSize →
            Cache.set maxSize c key (some s) t hi =
              some (c, Cache.Error.TOO_BIG)) ∧
         (Cache.WF c → (key.length : Int) + s.length ≤ maxSize →
            ∃ c', Cache.set maxSize c key (some s) t hi =
              some (c', Cache.Error.NO_ERROR)))) ∧
    (Cache.set 2 Cache.emptyCache "a" (some "12") 5 0 =
        some (Cache.emptyCache, Cache.Error.TOO_BIG) ∧
      Cache.get Cache.emptyCache "a" = (none, none)) := by
  constructor
  · intro maxSize c key s t hi hs
    constructor
    · intro hsize
      exact Cache.set_too_big maxSize c key s t hi hs hsize
    · intro hwf hsize
      have hsize2 : ¬ (key.length : Int) + s.length > maxSize := not_lt.2 hsize
      cases hl : alookup c.cache key with
      | none =>
        have hres : residualFor c key +
            ((key.length : Int) + s.length) ≤ maxSize := by
          simp only [residualFor, hl]
          omega
        obtain ⟨cOut, hse⟩ := Cache.setEntry_isSome maxSize
          ((key.length : Int) + s.length) key ⟨s, t, hi⟩ c hwf hres
        exact ⟨cOut, by rw [Cache.set_new maxSize c key s t hi hs hsize2 hl, hse]; rfl⟩
      | some e =>
        by_cases ht : e.last_update ≤ t
        · have hres : residualFor c key +
              ((key.length : Int) + s.length -
                ((key.length : Int) + e.value.length)) ≤ maxSize := by
            unfold residualFor
            rw [hl]
            dsimp only
            omega
          obtain ⟨cOut, hse⟩ := Cache.setEntry_isSome maxSize
            ((key.length : Int) + s.length -
              ((key.length : Int) + e.value.length)) key ⟨s, t, e.hash_index⟩ c hwf hres
          exact ⟨cOut,
            by rw [Cache.set_update maxSize c key s t hi e hs hsize2 hl ht, hse]; rfl⟩
        · exact ⟨c, Cache.set_stale maxSize c key s t hi e hs hsize2 hl ht⟩
  · exact ⟨by decide, by decide⟩

/-- Witness for C8 at the spec's literal input. -/
theorem C8_too_big_iff_witness :
    Cache.set 2 Cache.emptyCache "a" (some "12") 5 0 =
      some (Cache.emptyCache, Cache.Error.TOO_BIG) :=
  (C8_too_big_iff.1 2 Cache.emptyCache "a" "12" 5 0 (by decide)).1 (by decide)

/-- C10: a stale write (non-empty value that fits, timestamp strictly
earlier than the stored `last_update`) is silently ignored:
`Cache.set` returns `NO_ERROR` and the cache is unchanged. -/
theorem C10_stale_write_returns_no_error :
    ∀ (maxSize : Int) (c : Cache) (key s : String) (t : Int) (hi : ℚ)
      (e : Entry),
      s ≠ "" → (key.length : Int) + s.length ≤ maxSize →
      alookup c.cache key = some e → t < e.last_update →
      Cache.set maxSize c key (some s) t hi =
        some (c, Cache.Error.NO_ERROR) := by
  intro maxSize c key s t hi e hs hsize hl ht
  exact Cache.set_stale maxSize c key s t hi e hs (not_lt.2 hsize) hl
    (not_le.2 ht)

/-- Witness for C10: a stale write against stored timestamp `3` on the
`"k"` cache returns `NO_ERROR` without touching the state. -/
theorem C10_stale_write_returns_no_error_witness :
    Cache.set 50 exCacheK "k" (some "w") 1 0 =
      some (exCacheK, Cache.Error.NO_ERROR) :=
  C10_stale_write_returns_no_error 50 exCacheK "k" "w" 1 0 ⟨"v", 3, 0⟩
    (by decide) (by decide) (by decide) (by decide)

/-! ### Ring lookup (C3) -/

theorem getLastD_mem {α : Type} :
    ∀ (l : List α) (d : α), l ≠ [] → l.getLastD d ∈ l := by
  intro l
  induction l with
  | nil => intro d h; exact absurd rfl h
  | cons a rest ih =>
    intro d _
    cases hr : rest with
    | nil => simp
    | cons b bs =>
      rw [List.getLastD_cons]
      right
      rw [← hr]
      exact ih a (by rw [hr]; exact List.cons_ne_nil b bs)

theorem all_lt_of_getLastD_lt :
    ∀ (l : List ℚ) (x : ℚ), List.Pairwise (· ≤ ·) l →
      l.getLastD 0 < x → ∀ a ∈ l, a < x := by
  intro l
  induction l with
  | nil => simp
  | cons a rest ih =>
    intro x hs hlt b hb
    cases hr : rest with
    | nil =>
      subst hr
      simp only [List.getLastD] at hlt
      rcases List.mem_cons.1 hb with rfl | h2
      · exact hlt
      · simp at h2
    | cons c cs =>
      subst hr
      rw [List.getLastD_cons] at hlt
      have hlt2 : (c :: cs).getLastD 0 < x := by
        rw [List.getLastD_cons]
        rw [List.getLastD_cons] at hlt
        exact hlt
      rcases List.mem_cons.1 hb with rfl | hb2
      · have hm := getLastD_mem (c :: cs) 0 (List.cons_ne_nil c cs)
        exact lt_of_le_of_lt ((List.pairwise_cons.1 hs).1 _ hm) hlt2
      · exact ih x (List.pairwise_cons.1 hs).2 hlt2 b hb2

/-- `bisect_left` on the index list locates exactly the first point whose
index is `≥ x` — on any list, since `takeWhile` stops at the first
failure. -/
theorem find?_le_eq_get_bisect (circle : Circle) (x : ℚ) :
    circle.find? (fun p => decide (x ≤ p.1)) =
      circle.get? (bisectLeft (circle.map Prod.fst) x) := by
  induction circle with
  | nil => rfl
  | cons p rest ih =>
    by_cases h : x ≤ p.1
    · have h2 : ¬ p.1 < x := not_lt.2 h
      simp [List.find?_cons, bisectLeft, h, h2]
    · have h2 : p.1 < x := not_le.1 h
      simp only [List.find?_cons, decide_eq_true_eq, if_neg h, bisectLeft,
        List.map_cons, List.takeWhile_cons, decide_eq_true_eq, if_pos h2,
        List.length_cons, List.get?_cons_succ]
      by_cases hfind : (x ≤ p.1)
      · exact absurd hfind h
      · simp only [decide_eq_false h, Bool.false_eq_true, not_false_eq_true,
          List.find?_cons_of_neg]
        exact ih

theorem bisect_lt_length (l : List ℚ) (x a : ℚ) (ha : a ∈ l)
    (hax : ¬ a < x) : bisectLeft l x < l.length := by
  induction l with
  | nil => simp at ha
  | cons c rest ih =>
    by_cases hc : c < x
    · rcases List.mem_cons.1 ha with rfl | ha2
      · exact absurd hc hax
      · simp only [bisectLeft, List.takeWhile_cons, decide_eq_true_eq,
          if_pos hc, List.length_cons]
        exact Nat.succ_lt_succ (ih ha2)
    · simp [bisectLeft, List.takeWhile_cons, hc]

/-- C3: on every nonempty ring sorted by index, `_node_for_index` elects the
node at the point with the smallest index `≥ hash_index`, wrapping to the
first point when the index is beyond the last point (first conjunct); in
particular the literal ring `[(0.1,A),(0.2,B),(0.5,A),(0.9,B)]` sends the
lookups `0.00, 0.11, 0.19, 0.21, 0.90, 0.91` to `A, B, B, A, B, A`
(second conjunct). -/
theorem C3_ring_lookup :
    (∀ (circle : Circle) (x : ℚ), circle ≠ [] →
        List.Pairwise (fun a b : ℚ × String => a.1 ≤ b.1) circle →
        nodeForIndex circle x = specOwner circle x) ∧
    (nodeForIndex exRing 0 = "A" ∧ nodeForIndex exRing (mkRat 11 100) = "B" ∧
      nodeForIndex exRing (mkRat 19 100) = "B" ∧
      nodeForIndex exRing (mkRat 21 100) = "A" ∧
      nodeForIndex exRing (mkRat 90 100) = "B" ∧
      nodeForIndex exRing (mkRat 91 100) = "A") := by
  constructor
  · intro circle x hne hs
    unfold nodeForIndex specOwner
    dsimp only
    by_cases hw : ((circle.map Prod.fst).getLastD 0) < x
    · rw [if_pos hw]
      have hall : ∀ p ∈ circle, p.1 < x := by
        intro p hp
        refine all_lt_of_getLastD_lt (circle.map Prod.fst) x ?_ hw p.1
          (List.mem_map.2 ⟨p, hp, rfl⟩)
        exact (List.pairwise_map).2 hs
      have hnone : circle.find? (fun p => decide (x ≤ p.1)) = none := by
        rw [List.find?_eq_none]
        intro p hp
        simp only [decide_eq_true_eq, not_le]
        exact hall p hp
      rw [hnone]
      cases circle with
      | nil => exact absurd rfl hne
      | cons p rest => rfl
    · rw [if_neg hw]
      have hlast : ((circle.map Prod.fst).getLastD 0) ∈ circle.map Prod.fst :=
        getLastD_mem (circle.map Prod.fst) 0
          (by simpa using hne)
      have hlt := bisect_lt_length (circle.map Prod.fst) x _ hlast hw
      rw [find?_le_eq_get_bisect circle x]
      rw [List.length_map] at hlt
      rw [List.get?_eq_get hlt]
      rw [List.getD_eq_getElem circle (0, "") (by simpa using hlt)]
      simp [List.get_eq_getElem]
  · refine ⟨by decide, by decide, by decide, by decide, by decide, by decide⟩

/-- Witness for C3's general conjunct at the literal ring. -/
theorem C3_ring_lookup_witness :
    nodeForIndex exRing (mkRat 11 100) = specOwner exRing (mkRat 11 100) :=
  C3_ring_lookup.1 exRing (mkRat 11 100) (by decide) (by decide)

/-! ### Ring count (C7) -/

theorem length_addToCircles (hash : String → ℚ) (s : NodesState)
    (nodeId : String) (circles : List Circle) (recalc : Bool) :
    (addToCircles hash s nodeId circles recalc).length = circles.length := by
  simp [addToCircles]

theorem length_removeFromCircles (circles : List Circle) (removeId : String) :
    (removeFromCircles circles removeId).length = circles.length := by
  simp [removeFromCircles]

/-- C7: in every state reachable by node additions and removals, the number
of active distribution circles equals `min(REDUNDANCY, number of known nodes
including self)`; both `_add_node` and `_remove_node` preserve the
equality. -/
theorem C7_ring_count :
    ∀ (hash : String → ℚ) (s : NodesState), Reachable hash s →
      s.circles.length = min REDUNDANCY (s.nodes.length + 1) := by
  intro hash s h
  induction h with
  | init nodeId req pub =>
    simp [initState, length_addToCircles, REDUNDANCY]
  | @add s nodeId node _hr hne _hab ih =>
    unfold addNode
    rw [if_pos hne]
    by_cases hrec : s.circles.length < (s.nodes ++ [(nodeId, node)]).length + 1 ∧
        s.circles.length < REDUNDANCY
    · rw [if_pos hrec]
      simp only [length_addToCircles, List.length_append, List.length_cons,
        List.length_nil]
      simp only [List.length_append, List.length_cons, List.length_nil] at hrec
      unfold REDUNDANCY at ih hrec ⊢
      omega
    · rw [if_neg hrec]
      simp only [length_addToCircles, List.length_append, List.length_cons,
        List.length_nil]
      simp only [List.length_append, List.length_cons, List.length_nil] at hrec
      unfold REDUNDANCY at ih hrec ⊢
      omega
  | @remove s nodeId _hr hsome ih =>
    obtain ⟨v, hv⟩ := Option.isSome_iff_exists.1 hsome
    have hlen := length_aerase_of_alookup s.nodes nodeId v hv
    unfold removeNode
    dsimp only
    simp only [length_removeFromCircles]
    by_cases hc : s.nodes.length + 1 - 1 < s.circles.length
    · rw [if_pos hc]
      simp only [List.length_dropLast]
      unfold REDUNDANCY at ih ⊢
      omega
    · rw [if_neg hc]
      unfold REDUNDANCY at ih ⊢
      omega

/-- Witness for C7 after one concrete addition: two nodes, two rings. -/
theorem C7_ring_count_witness :
    exS1.circles.length = min REDUNDANCY (exS1.nodes.length + 1) :=
  C7_ring_count exHash exS1
    (Reachable.add "AA" exNodeA (Reachable.init "SS" "reqS" "pubS")
      (by decide) (by decide))

/-! ### Set fan-out timeout (C5) -/

theorem alookup_eq_none_of_not_mem_keys {α : Type} (l : List (String × α))
    (k : String) (h : ¬ k ∈ l.map Prod.fst) : alookup l k = none := by
  induction l with
  | nil => rfl
  | cons p rest ih =>
    simp only [List.map_cons, List.mem_cons, not_or] at h
    have hp : ¬ p.1 = k := fun hh => h.1 hh.symm
    simp [alookup, hp, ih h.2]

theorem not_mem_keys_aerase_self {α : Type} (l : List (String × α))
    (k : String) (h : (l.map Prod.fst).Nodup) :
    ¬ k ∈ (aerase l k).map Prod.fst := by
  induction l with
  | nil => simp [aerase]
  | cons p rest ih =>
    simp only [List.map_cons, List.nodup_cons] at h
    by_cases hp : p.1 = k
    · simp only [aerase, if_pos hp]
      intro hm
      exact h.1 (hp ▸ hm)
    · simp only [aerase, if_neg hp, List.map_cons, List.mem_cons, not_or]
      exact ⟨fun hh => hp hh.symm, ih h.2⟩

theorem not_mem_keys_popPending {α : Type} :
    ∀ (completed : List String) (pending : List (String × α)) (k : String),
      ¬ k ∈ pending.map Prod.fst →
      ¬ k ∈ (popPending pending completed).map Prod.fst := by
  intro completed
  induction completed with
  | nil => intro pending k h; exact h
  | cons c cs ih =>
    intro pending k h
    have h2 : ¬ k ∈ (aerase pending c).map Prod.fst :=
      fun hm => h (mem_keys_of_mem_keys_aerase pending c k hm)
    exact ih (aerase pending c) k h2

theorem alookup_popPending_eq_none {α : Type} :
    ∀ (completed : List String) (pending : List (String × α)),
      (pending.map Prod.fst).Nodup →
      ∀ rid ∈ completed, alookup (popPending pending completed) rid = none := by
  intro completed
  induction completed with
  | nil => intro _ _ rid h; simp at h
  | cons c cs ih =>
    intro pending hnd rid hr
    have hstep : popPending pending (c :: cs) = popPending (aerase pending c) cs :=
      rfl
    rw [hstep]
    rcases List.mem_cons.1 hr with rfl | hr2
    · exact alookup_eq_none_of_not_mem_keys _ rid
        (not_mem_keys_popPending cs (aerase pending rid) rid
          (not_mem_keys_aerase_self pending rid hnd))
    · exact ih (aerase pending c) (nodup_keys_aerase pending c hnd) rid hr2

/-- C5 counterexample: when one of a set fan-out's outstanding peer requests
times out, `_handle_response_from_other_node` replies `TIMEOUT` but reports
as completed ALL request ids of the fan-out — not only the timed-out one as
the claim states. -/
theorem C5_set_timeout_counterexample :
    handleSetResponse ["r1", "r2"] [] 3 "r1" none =
      (some APIError.TIMEOUT, [], ["r1", "r2"]) ∧
    ["r1", "r2"] ≠ ["r1"] := by decide

/-- C5 (amended): on a timeout the set fan-out handler replies error code 2
(timeout) to the client immediately and reports as completed ALL request ids
of the fan-out, so the siblings' pending entries are removed and their late
replies find no handler and become no-ops. -/
theorem C5_set_timeout_amended :
    ∀ (requestIds : List String) (responses : List ReqError)
      (responsesCount : Nat) (requestId : String),
      handleSetResponse requestIds responses responsesCount requestId none =
        (some APIError.TIMEOUT, responses, requestIds) ∧
      ∀ (α : Type) (pending : List (String × α)),
        (pending.map Prod.fst).Nodup →
        ∀ rid ∈ requestIds,
          alookup (popPending pending requestIds) rid = none := by
  intro requestIds responses responsesCount requestId
  exact ⟨rfl, fun α pending hnd rid hr =>
    alookup_popPending_eq_none requestIds pending hnd rid hr⟩

/-- Witness for the amended C5: a concrete two-peer fan-out where `"r1"`
times out; the reply is `TIMEOUT` and the sibling `"r2"` is no longer
pending. -/
theorem C5_set_timeout_amended_witness :
    handleSetResponse ["r1", "r2"] [] 3 "r1" none =
      (some APIError.TIMEOUT, [], ["r1", "r2"]) ∧
    alookup (popPending [("r1", 0), ("r2", 1)] ["r1", "r2"]) "r2" = none :=
  ⟨(C5_set_timeout_amended ["r1", "r2"] [] 3 "r1").1,
    (C5_set_timeout_amended ["r1", "r2"] [] 3 "r1").2 Nat
      [("r1", 0), ("r2", 1)] (by decide) "r2" (by decide)⟩

/-! ### Get fan-out (C6) -/

/-- C6 counterexample: a node that is not among the owners of a key but
still holds a cached value for it replies from the local cache instead of
fanning out to the owners, refuting the claim's first branch as stated. -/
theorem C6_get_counterexample :
    ¬ "SS" ∈ ["AA"] ∧
    handleApiGet exCacheK "SS" "k" ["AA"] = GetAction.reply "v" ∧
    GetAction.reply "v" ≠ GetAction.fanOut ["AA"] := by decide

/-- C6 (amended): the API get handler fans out a peer get to every owner
exactly when the local cache has NO value for the key and the local node is
not an owner; in every other case — the local node is an owner, or a value
is cached even though the node is not an owner — it replies from the local
cache with the stored value, or the empty string when the key is absent. -/
theorem C6_get_amended :
    ∀ (c : Cache) (selfId key : String) (owners : List String),
      (alookup c.cache key = none → ¬ selfId ∈ owners →
        handleApiGet c selfId key owners = GetAction.fanOut owners) ∧
      (¬ (alookup c.cache key = none ∧ ¬ selfId ∈ owners) →
        handleApiGet c selfId key owners =
          GetAction.reply (((alookup c.cache key).map Entry.value).getD "")) := by
  intro c selfId key owners
  constructor
  · intro hl hmem
    simp [handleApiGet, Cache.get, hl, hmem]
  · intro hmem
    unfold handleApiGet Cache.get
    cases hl : alookup c.cache key with
    | none =>
      have hmem2 : selfId ∈ owners := by
        by_contra hcon
        exact hmem ⟨hl, hcon⟩
      simp [hmem2]
    | some e => simp

/-- Witness for the amended C6: with an empty cache and a foreign owner the
handler fans out to every owner; with the same foreign owner but a locally
cached value it replies that value from the local cache. -/
theorem C6_get_amended_witness :
    handleApiGet Cache.emptyCache "SS" "k" ["AA"] = GetAction.fanOut ["AA"] ∧
    handleApiGet exCacheK "SS" "k" ["AA"] = GetAction.reply "v" :=
  ⟨(C6_get_amended Cache.emptyCache "SS" "k" ["AA"]).1 (by decide) (by decide),
    ((C6_get_amended exCacheK "SS" "k" ["AA"]).2 (by decide)).trans (by decide)⟩

/-! ### Redistribute (C4) -/

theorem alookup_append {α : Type} (l1 l2 : List (String × α)) (k : String) :
    alookup (l1 ++ l2) k =
      match alookup l1 k with
      | some v => some v
      | none => alookup l2 k := by
  induction l1 with
  | nil => simp [alookup]
  | cons p rest ih =>
    by_cases hp : p.1 = k <;> simp [alookup, hp, ih]

theorem alookup_aadjust {α : Type} (l : List (String × α)) (key k : String)
    (f : α → α) :
    alookup (aadjust l key f) k =
      if key = k then (alookup l k).map f else alookup l k := by
  induction l with
  | nil => simp [aadjust, alookup]
  | cons p rest ih =>
    by_cases hp : p.1 = key
    · by_cases hk : key = k
      · subst hk
        simp [aadjust, alookup, hp]
      · have hpk : ¬ p.1 = k := by rw [hp]; exact hk
        simp [aadjust, if_pos hp, alookup, hpk, hk, ih]
    · by_cases hpk : p.1 = k
      · have hk : ¬ key = k := fun hh => hp (by rw [hh]; exact hpk)
        have hk2 : ¬ k = key := fun hh => hk hh.symm
        simp [aadjust, if_neg hp, alookup, hpk, hk, hk2]
      · simp [aadjust, if_neg hp, alookup, hpk, ih]

theorem alookup_sendUnion_ne (send : List (String × List String))
    (key : String) (ids : List String) (k : String) (h : k ≠ key) :
    alookup (sendUnion send key ids) k = alookup send k := by
  unfold sendUnion
  cases hl : alookup send key with
  | none =>
    rw [alookup_append]
    cases hk : alookup send k with
    | some v => rfl
    | none =>
      have hkey : ¬ key = k := fun hh => h hh.symm
      simp [alookup, hkey]
  | some old =>
    rw [alookup_aadjust]
    rw [if_neg (fun hh => h hh.symm)]

theorem alookup_sendUnion_self_none (send : List (String × List String))
    (key : String) (ids : List String) (h : alookup send key = none) :
    alookup (sendUnion send key ids) key = some ids := by
  unfold sendUnion
  rw [h, alookup_append, h]
  simp [alookup]

theorem redistStep_send_ne (s : NodesState) (oldC : List Circle)
    (me : List String) (r : RedistResult) (kp : String × ℚ) (key : String)
    (h : key ≠ kp.1) :
    alookup (redistStep s oldC me r kp).send key = alookup r.send key := by
  unfold redistStep
  dsimp only
  by_cases g1 : s.node_id ∈ ownersForIndex oldC kp.2
  · rw [if_pos g1]
    by_cases g2 : s.node_id ∈ ownersForIndex s.circles kp.2
    · rw [if_pos g2]
      exact alookup_sendUnion_ne r.send kp.1 _ key h
    · rw [if_neg g2]
      exact alookup_sendUnion_ne r.send kp.1 _ key h
  · rw [if_neg g1]
    by_cases g2 : s.node_id ∈ ownersForIndex s.circles kp.2
    · rw [if_pos g2]
    · rw [if_neg g2]

theorem redistStep_send_self (s : NodesState) (oldC : List Circle)
    (me : List String) (r : RedistResult) (kp : String × ℚ)
    (h0 : alookup r.send kp.1 = none) :
    alookup (redistStep s oldC me r kp).send kp.1 =
      if s.node_id ∈ ownersForIndex oldC kp.2
      then some ((ownersForIndex s.circles kp.2).filter
          (fun n => ¬ n ∈ ownersForIndex oldC kp.2 ∧ ¬ n ∈ me))
      else none := by
  unfold redistStep
  dsimp only
  by_cases g1 : s.node_id ∈ ownersForIndex oldC kp.2
  · rw [if_pos g1, if_pos g1]
    by_cases g2 : s.node_id ∈ ownersForIndex s.circles kp.2
    · rw [if_pos g2]
      exact alookup_sendUnion_self_none r.send kp.1 _ h0
    · rw [if_neg g2]
      exact alookup_sendUnion_self_none r.send kp.1 _ h0
  · rw [if_neg g1, if_neg g1]
    by_cases g2 : s.node_id ∈ ownersForIndex s.circles kp.2
    · rw [if_pos g2]
      exact h0
    · rw [if_neg g2]
      exact h0

theorem foldl_redistStep_send_preserve (s : NodesState) (oldC : List Circle)
    (me : List String) :
    ∀ (keys : List (String × ℚ)) (r0 : RedistResult) (key : String),
      ¬ key ∈ keys.map Prod.fst →
      alookup ((keys.foldl (redistStep s oldC me) r0).send) key =
        alookup r0.send key := by
  intro keys
  induction keys with
  | nil => intro r0 key _; rfl
  | cons kp rest ih =>
    intro r0 key h
    simp only [List.map_cons, List.mem_cons, not_or] at h
    rw [List.foldl_cons, ih (redistStep s oldC me r0 kp) key h.2]
    exact redistStep_send_ne s oldC me r0 kp key h.1

theorem foldl_redistStep_send (s : NodesState) (oldC : List Circle)
    (me : List String) :
    ∀ (keys : List (String × ℚ)) (r0 : RedistResult) (key : String) (kidx : ℚ),
      (keys.map Prod.fst).Nodup → (key, kidx) ∈ keys →
      alookup r0.send key = none →
      alookup ((keys.foldl (redistStep s oldC me) r0).send) key =
        (if s.node_id ∈ ownersForIndex oldC kidx
         then some ((ownersForIndex s.circles kidx).filter
            (fun n => ¬ n ∈ ownersForIndex oldC kidx ∧ ¬ n ∈ me))
         else none) := by
  intro keys
  induction keys with
  | nil => intro r0 key kidx _ hmem; simp at hmem
  | cons kp rest ih =>
    intro r0 key kidx hnd hmem h0
    simp only [List.map_cons, List.nodup_cons] at hnd
    rcases List.mem_cons.1 hmem with rfl | hmem2
    · rw [List.foldl_cons,
        foldl_redistStep_send_preserve s oldC me rest _ key hnd.1]
      exact redistStep_send_self s oldC me r0 (key, kidx) h0
    · have hne : key ≠ kp.1 := by
        intro hh
        exact hnd.1 (hh ▸ List.mem_map.2 ⟨(key, kidx), hmem2, rfl⟩)
      rw [List.foldl_cons]
      refine ih (redistStep s oldC me r0 kp) key kidx hnd.2 hmem2 ?_
      rw [redistStep_send_ne s oldC me r0 kp key hne]
      exact h0

set_option maxRecDepth 8000 in
/-- C4 counterexample: after the reachable sequence add `AA`, add `BB`,
remove `BB` (with a rebalance after each addition), the key with hash index
`0.5` had previous owners `{BB}` (both on the actual pre-removal rings and
on the reconstructed old rings) and has new owners `{AA}`, so the claim
demands the send map to bind it to `{AA} − {BB} − {SS} = {AA}`; but
`redistribute` leaves the key out of the send map entirely, because the
local node `SS` is not among the old owners. -/
theorem C4_redistribute_send_counterexample :
    ownersForIndex exS3.circles (mkRat 1 2) = ["BB", "BB", "BB"] ∧
    ownersForIndex exS4.circles (mkRat 1 2) = ["AA", "AA"] ∧
    ownersForIndex (oldCirclesFor exHash exS4 ["BB"]) (mkRat 1 2) =
      ["BB", "BB"] ∧
    ("AA" ∈ ownersForIndex exS4.circles (mkRat 1 2) ∧
      ¬ "AA" ∈ ownersForIndex exS3.circles (mkRat 1 2) ∧ "AA" ≠ "SS") ∧
    (redistribute exHash exS4 [("k", mkRat 1 2)] ["BB"]).map
      (fun p => alookup p.2.send "k") = some none := by decide

/-- C4 (amended): for every cached key, `redistribute` binds the key in the
send map — to exactly the new owners that are neither old owners nor
one-character substrings of the local id (`frozenset` of a string is its
character set; for multi-character node ids this only drops self, which the
old-owner guard already excludes) — precisely when the local node is among
the key's OLD owners, computed against the reconstructed previous rings;
keys whose old owners do not include the local node are absent from the
send map. -/
theorem C4_redistribute_send_amended :
    ∀ (hash : String → ℚ) (s : NodesState) (keys : List (String × ℚ))
      (nodeIds : List String) (s' : NodesState) (r : RedistResult)
      (key : String) (kidx : ℚ),
      redistribute hash s keys nodeIds = some (s', r) →
      (keys.map Prod.fst).Nodup → (key, kidx) ∈ keys →
      alookup r.send key =
        (if s.node_id ∈ ownersForIndex (oldCirclesFor hash s nodeIds) kidx
         then some ((ownersForIndex s.circles kidx).filter
            (fun n => ¬ n ∈ ownersForIndex (oldCirclesFor hash s nodeIds) kidx ∧
              ¬ n ∈ meSetOf s.node_id))
         else none) := by
  intro hash s keys nodeIds s' r key kidx hred hnd hmem
  cases nodeIds with
  | nil => simp [redistribute] at hred
  | cons n0 ns =>
    simp only [redistribute, Option.some.injEq, Prod.mk.injEq] at hred
    obtain ⟨-, h2⟩ := hred
    subst h2
    exact foldl_redistStep_send s (oldCirclesFor hash s (n0 :: ns))
      (meSetOf s.node_id) keys ⟨[], []⟩ key kidx hnd hmem rfl

theorem addNode_node_id (hash : String → ℚ) (s : NodesState) (nid : String)
    (rec : NodeRec) : (addNode hash s nid rec).node_id = s.node_id := by
  unfold addNode
  split
  · dsimp only
    split
    · rfl
    · rfl
  · rfl

theorem addNode_req_address (hash : String → ℚ) (s : NodesState)
    (nid : String) (rec : NodeRec) :
    (addNode hash s nid rec).req_address = s.req_address := by
  unfold addNode
  split
  · dsimp only
    split
    · rfl
    · rfl
  · rfl

theorem addNode_pub_address (hash : String → ℚ) (s : NodesState)
    (nid : String) (rec : NodeRec) :
    (addNode hash s nid rec).pub_address = s.pub_address := by
  unfold addNode
  split
  · dsimp only
    split
    · rfl
    · rfl
  · rfl

theorem addNode_nodes (hash : String → ℚ) (s : NodesState) (nid : String)
    (rec : NodeRec) :
    (addNode hash s nid rec).nodes =
      (if nid ≠ s.node_id then s.nodes ++ [(nid, rec)] else s.nodes) := by
  unfold addNode
  by_cases h : nid ≠ s.node_id
  · rw [if_pos h, if_pos h]
    dsimp only
    split
    · rfl
    · rfl
  · rw [if_neg h, if_neg h]

theorem updStep_node_id (hash : String → ℚ) (selfId : String)
    (RA PA : List String) (acc : NodesState × List String)
    (e : String × String × String × Int) :
    (updStep hash selfId RA PA acc e).1.node_id = acc.1.node_id := by
  unfold updStep
  split
  · split
    · split
      · exact addNode_node_id hash acc.1 _ _
      · rfl
    · split
      · rfl
      · rfl
  · rfl

theorem foldl_updStep_node_id (hash : String → ℚ) (selfId : String)
    (RA PA : List String) :
    ∀ (table : List (String × String × String × Int))
      (acc : NodesState × List String),
      ((table.foldl (updStep hash selfId RA PA) acc).1).node_id =
        acc.1.node_id := by
  intro table
  induction table with
  | nil => intro acc; rfl
  | cons e rest ih =>
    intro acc
    rw [List.foldl_cons, ih (updStep hash selfId RA PA acc e),
      updStep_node_id]

/-- Advancing `last_seen` never changes any peer's request address. -/
theorem map_req_aadjust :
    ∀ (l : List (String × NodeRec)) (k : String) (t : Int),
      (aadjust l k (fun n => { n with last_seen := t })).map
          (fun p => p.2.req_address) =
        l.map (fun p => p.2.req_address) := by
  intro l
  induction l with
  | nil => intro k t; rfl
  | cons p rest ih =>
    intro k t
    by_cases hp : p.1 = k
    · simp [aadjust, hp, ih]
    · simp [aadjust, hp, ih]

/-- Advancing `last_seen` never changes any peer's publish address. -/
theorem map_pub_aadjust :
    ∀ (l : List (String × NodeRec)) (k : String) (t : Int),
      (aadjust l k (fun n => { n with last_seen := t })).map
          (fun p => p.2.pub_address) =
        l.map (fun p => p.2.pub_address) := by
  intro l
  induction l with
  | nil => intro k t; rfl
  | cons p rest ih =>
    intro k t
    by_cases hp : p.1 = k
    · simp [aadjust, hp, ih]
    · simp [aadjust, hp, ih]

theorem mem_reqAddrsOf_updStep (hash : String → ℚ) (selfId : String)
    (RA PA : List String) (acc : NodesState × List String)
    (e : String × String × String × Int) (a : String)
    (h : a ∈ reqAddrsOf acc.1) :
    a ∈ reqAddrsOf (updStep hash selfId RA PA acc e).1 := by
  unfold updStep
  split
  · split
    · split
      · unfold reqAddrsOf at h ⊢
        dsimp only
        rw [addNode_nodes, addNode_req_address]
        split
        · simp only [List.map_append, List.map_cons, List.map_nil,
            List.mem_append, List.mem_cons, List.not_mem_nil] at h ⊢
          tauto
        · exact h
      · exact h
    · split
      · unfold reqAddrsOf at h ⊢
        dsimp only
        rw [map_req_aadjust]
        exact h
      · exact h
  · exact h

theorem mem_pubAddrsOf_updStep (hash : String → ℚ) (selfId : String)
    (RA PA : List String) (acc : NodesState × List String)
    (e : String × String × String × Int) (a : String)
    (h : a ∈ pubAddrsOf acc.1) :
    a ∈ pubAddrsOf (updStep hash selfId RA PA acc e).1 := by
  unfold updStep
  split
  · split
    · split
      · unfold pubAddrsOf at h ⊢
        dsimp only
        rw [addNode_nodes, addNode_pub_address]
        split
        · simp only [List.map_append, List.map_cons, List.map_nil,
            List.mem_append, List.mem_cons, List.not_mem_nil] at h ⊢
          tauto
        · exact h
      · exact h
    · split
      · unfold pubAddrsOf at h ⊢
        dsimp only
        rw [map_pub_aadjust]
        exact h
      · exact h
  · exact h

theorem mem_reqAddrsOf_foldl (hash : String → ℚ) (selfId : String)
    (RA PA : List String) :
    ∀ (table : List (String × String × String × Int))
      (acc : NodesState × List String) (a : String),
      a ∈ reqAddrsOf acc.1 →
      a ∈ reqAddrsOf ((table.foldl (updStep hash selfId RA PA) acc).1) := by
  intro table
  induction table with
  | nil => intro acc a h; exact h
  | cons e rest ih =>
    intro acc a h
    rw [List.foldl_cons]
    exact ih (updStep hash selfId RA PA acc e) a
      (mem_reqAddrsOf_updStep hash selfId RA PA acc e a h)

theorem mem_pubAddrsOf_foldl (hash : String → ℚ) (selfId : String)
    (RA PA : List String) :
    ∀ (table : List (String × String × String × Int))
      (acc : NodesState × List String) (a : String),
      a ∈ pubAddrsOf acc.1 →
      a ∈ pubAddrsOf ((table.foldl (updStep hash selfId RA PA) acc).1) := by
  intro table
  induction table with
  | nil => intro acc a h; exact h
  | cons e rest ih =>
    intro acc a h
    rw [List.foldl_cons]
    exact ih (updStep hash selfId RA PA acc e) a
      (mem_pubAddrsOf_updStep hash selfId RA PA acc e a h)

theorem alookup_updStep_ne (hash : String → ℚ) (selfId : String)
    (RA PA : List String) (acc : NodesState × List String)
    (e : String × String × String × Int) (k : String) (hne : k ≠ e.1) :
    alookup (updStep hash selfId RA PA acc e).1.nodes k =
      alookup acc.1.nodes k := by
  unfold updStep
  split
  · split
    · split
      · dsimp only
        rw [addNode_nodes]
        split
        · rw [alookup_append]
          cases h2 : alookup acc.1.nodes k with
          | some v => rfl
          | none =>
            have h3 : ¬ e.1 = k := fun hh => hne hh.symm
            simp [alookup, h3]
        · rfl
      · rfl
    · split
      · dsimp only
        rw [alookup_aadjust, if_neg (fun hh => hne hh.symm)]
      · rfl
  · rfl

theorem foldl_alookup_preserve (hash : String → ℚ) (selfId : String)
    (RA PA : List String) :
    ∀ (table : List (String × String × String × Int))
      (acc : NodesState × List String) (k : String),
      ¬ k ∈ table.map Prod.fst →
      alookup ((table.foldl (updStep hash selfId RA PA) acc).1).nodes k =
        alookup acc.1.nodes k := by
  intro table
  induction table with
  | nil => intro acc k _; rfl
  | cons e rest ih =>
    intro acc k h
    simp only [List.map_cons, List.mem_cons, not_or] at h
    rw [List.foldl_cons, ih (updStep hash selfId RA PA acc e) k h.2]
    exact alookup_updStep_ne hash selfId RA PA acc e k h.1

theorem updStep_settles (hash : String → ℚ) (selfId : String)
    (RA PA : List String) (acc : NodesState × List String)
    (e : String × String × String × Int) (hid : acc.1.node_id = selfId)
    (hne : e.1 ≠ selfId) :
    updSettled RA PA (updStep hash selfId RA PA acc e).1 e := by
  unfold updStep
  rw [if_pos hne]
  cases hl : alookup acc.1.nodes e.1 with
  | none =>
    dsimp only
    by_cases hc : ¬ e.2.1 ∈ RA ∧ ¬ e.2.2.1 ∈ PA
    · rw [if_pos hc]
      left
      refine ⟨⟨e.2.1, e.2.2.1, e.2.2.2⟩, ?_, le_refl _⟩
      dsimp only
      rw [addNode_nodes, if_pos (show e.1 ≠ acc.1.node_id by rw [hid]; exact hne),
        alookup_append, hl]
      simp [alookup]
    · rw [if_neg hc]
      right
      refine ⟨hl, ?_⟩
      push_neg at hc
      by_cases hr : e.2.1 ∈ RA
      · exact Or.inl hr
      · exact Or.inr (hc hr)
  | some stored =>
    dsimp only
    by_cases hc : e.2.2.2 > stored.last_seen
    · rw [if_pos hc]
      left
      refine ⟨{ stored with last_seen := e.2.2.2 }, ?_, le_refl _⟩
      dsimp only
      rw [alookup_aadjust, if_pos rfl, hl]
      rfl
    · rw [if_neg hc]
      exact Or.inl ⟨stored, hl, not_lt.1 hc⟩

theorem foldl_updStep_settles (hash : String → ℚ) (selfId : String)
    (RA PA : List String) :
    ∀ (table : List (String × String × String × Int))
      (acc : NodesState × List String),
      acc.1.node_id = selfId → (table.map Prod.fst).Nodup →
      ∀ e ∈ table, e.1 ≠ selfId →
        updSettled RA PA ((table.foldl (updStep hash selfId RA PA) acc).1) e := by
  intro table
  induction table with
  | nil => intro acc _ _ e he; simp at he
  | cons e0 rest ih =>
    intro acc hid hnd e he hne
    simp only [List.map_cons, List.nodup_cons] at hnd
    rw [List.foldl_cons]
    rcases List.mem_cons.1 he with rfl | he2
    · have hset := updStep_settles hash selfId RA PA acc e hid hne
      have hpres := foldl_alookup_preserve hash selfId RA PA rest
        (updStep hash selfId RA PA acc e) e.1 hnd.1
      unfold updSettled at hset ⊢
      rw [hpres]
      exact hset
    · exact ih (updStep hash selfId RA PA acc e0)
        (by rw [updStep_node_id]; exact hid) hnd.2 e he2 hne

theorem updStep_noop (hash : String → ℚ) (selfId2 : String)
    (RA PA RA2 PA2 : List String) (s1 : NodesState) (l : List String)
    (e : String × String × String × Int)
    (hsubr : ∀ a ∈ RA, a ∈ RA2) (hsubp : ∀ a ∈ PA, a ∈ PA2)
    (hs : e.1 ≠ selfId2 → updSettled RA PA s1 e) :
    updStep hash selfId2 RA2 PA2 (s1, l) e = (s1, l) := by
  unfold updStep
  by_cases hne : e.1 ≠ selfId2
  · rw [if_pos hne]
    dsimp only
    rcases hs hne with ⟨rec, hlook, hle⟩ | ⟨hlook, hor⟩
    · rw [hlook]
      dsimp only
      rw [if_neg (not_lt.2 hle)]
    · rw [hlook]
      dsimp only
      rw [if_neg ?_]
      intro hcon
      rcases hor with hr | hp
      · exact hcon.1 (hsubr _ hr)
      · exact hcon.2 (hsubp _ hp)
  · rw [if_neg hne]

theorem foldl_updStep_noop (hash : String → ℚ) (selfId2 : String)
    (RA2 PA2 : List String) :
    ∀ (table : List (String × String × String × Int)) (s1 : NodesState)
      (l : List String),
      (∀ e ∈ table, ∀ l2 : List String,
        updStep hash selfId2 RA2 PA2 (s1, l2) e = (s1, l2)) →
      table.foldl (updStep hash selfId2 RA2 PA2) (s1, l) = (s1, l) := by
  intro table
  induction table with
  | nil => intro s1 l _; rfl
  | cons e rest ih =>
    intro s1 l h
    rw [List.foldl_cons, h e (List.mem_cons_self e rest) l]
    exact ih s1 l (fun e2 he2 l2 => h e2 (List.mem_cons_of_mem e he2) l2)

/-- C9: `update_nodes` is idempotent — applying the same table a second time
immediately after the first returns no added ids and leaves the entire state
(peer table with every `last_seen`, circles, counters) unchanged, because a
second pass only sees ids that are already bound with an at-least-as-late
`last_seen`, or ids that are still blocked by an address collision. -/
theorem C9_update_idempotent :
    ∀ (hash : String → ℚ) (s : NodesState)
      (table : List (String × String × String × Int)),
      (table.map Prod.fst).Nodup →
      updateNodes hash (updateNodes hash s table).1 table =
        ((updateNodes hash s table).1, []) := by
  intro hash s table hnd
  have hid : (updateNodes hash s table).1.node_id = s.node_id := by
    unfold updateNodes
    exact foldl_updStep_node_id hash s.node_id (reqAddrsOf s) (pubAddrsOf s)
      table (s, [])
  have hreq : ∀ a ∈ reqAddrsOf s, a ∈ reqAddrsOf (updateNodes hash s table).1 := by
    intro a ha
    unfold updateNodes
    exact mem_reqAddrsOf_foldl hash s.node_id (reqAddrsOf s) (pubAddrsOf s)
      table (s, []) a ha
  have hpub : ∀ a ∈ pubAddrsOf s, a ∈ pubAddrsOf (updateNodes hash s table).1 := by
    intro a ha
    unfold updateNodes
    exact mem_pubAddrsOf_foldl hash s.node_id (reqAddrsOf s) (pubAddrsOf s)
      table (s, []) a ha
  have hsettled : ∀ e ∈ table, e.1 ≠ s.node_id →
      updSettled (reqAddrsOf s) (pubAddrsOf s) (updateNodes hash s table).1 e := by
    intro e he hne
    unfold updateNodes
    exact foldl_updStep_settles hash s.node_id (reqAddrsOf s) (pubAddrsOf s)
      table (s, []) rfl hnd e he hne
  conv_lhs => unfold updateNodes
  apply foldl_updStep_noop
  intro e he l2
  refine updStep_noop hash (updateNodes hash s table).1.node_id
    (reqAddrsOf s) (pubAddrsOf s) _ _ _ l2 e hreq hpub ?_
  intro hne
  exact hsettled e he (by rw [← hid]; exact hne)

/-- Witness for C9: one concrete table applied twice to a fresh node. -/
theorem C9_update_idempotent_witness :
    updateNodes exHash
      (updateNodes exHash (initState exHash "SS" "reqS" "pubS")
        [("AA", ("reqA", "pubA", 5))]).1
      [("AA", ("reqA", "pubA", 5))] =
    ((updateNodes exHash (initState exHash "SS" "reqS" "pubS")
        [("AA", ("reqA", "pubA", 5))]).1, []) :=
  C9_update_idempotent exHash (initState exHash "SS" "reqS" "pubS")
    [("AA", ("reqA", "pubA", 5))] (by decide)

set_option maxRecDepth 8000 in
/-- Witness for the amended C4: hash index `0.99` wraps to the local node
`SS` on old and new rings alike, so the key is bound in the send map with an
empty owner set. -/
theorem C4_redistribute_send_amended_witness :
    alookup (RedistResult.mk [("k2", [])] [("k2", true)]).send "k2" =
      (if exS4.node_id ∈
          ownersForIndex (oldCirclesFor exHash exS4 ["BB"]) (mkRat 99 100)
       then some ((ownersForIndex exS4.circles (mkRat 99 100)).filter
          (fun n =>
            ¬ n ∈ ownersForIndex (oldCirclesFor exHash exS4 ["BB"]) (mkRat 99 100) ∧
              ¬ n ∈ meSetOf exS4.node_id))
       else none) :=
  C4_redistribute_send_amended exHash exS4 [("k2", mkRat 99 100)] ["BB"]
    { exS4 with recentCount := 2 } ⟨[("k2", [])], [("k2", true)]⟩
    "k2" (mkRat 99 100) (by decide) (by decide) (by decide)

end DCache
